import Mathlib

/-!
Verification development for the OyVai notes application core (src/main.js).

Shallow embedding conventions:
* JavaScript strings are modelled as `Str := List Char`; JS string helpers
  (split, trim, startsWith, toLowerCase, template literals) are translated to
  executable Lean functions on `List Char`.
* JS objects used as string-keyed dictionaries (the day map `notes`, the
  `stateOverrides` table) are modelled as association lists in insertion
  order; property assignment is the position-preserving upsert `setEntry`.
* `JSON`-level absence (`undefined` / missing field / `null`) is modelled with
  `Option`; JS string truthiness (`''` is falsy) is modelled by comparing with
  the empty list.
* External collaborators that are not part of the repository are parameters:
  `Date.parse` becomes `dp : Str -> Option Int` (`none` models `NaN`),
  `String.prototype.localeCompare` becomes `lc : Str -> Str -> Int`, and the
  OpenAI classifier round trip (`classifyBulletsWithOpenAI`) becomes an oracle
  returning `Option (List Str)` (`none` models both a `null` result and a
  thrown transport error where the caller catches it).
* `Array.prototype.sort` with a user comparator is required by the JS spec to
  be a stable sort; it is modelled by the stable `List.insertionSort` on the
  comparator predicate `cmp a b <= 0`.
-/

namespace OyVai

/-- JS strings as lists of characters. -/
abbrev Str := List Char

/-- Convenience conversion from Lean string literals. -/
def str (s : String) : Str := s.data

/-- JS `String.prototype.trimStart` (ASCII whitespace, which is all the
repository's documents use). -/
def trimL (s : Str) : Str := s.dropWhile Char.isWhitespace

/-- JS `String.prototype.trimEnd`. -/
def trimR (s : Str) : Str := (s.reverse.dropWhile Char.isWhitespace).reverse

/-- JS `String.prototype.trim`. -/
def trimS (s : Str) : Str := trimL (trimR s)

/-- JS `text.split('\n')`: splitting `""` yields `[""]`, and a trailing
newline yields a trailing empty piece, exactly as in JS. -/
def splitLines : Str → List Str
  | [] => [[]]
  | c :: t =>
    if c = '\n' then [] :: splitLines t
    else
      match splitLines t with
      | [] => [[c]]
      | l :: ls => (c :: l) :: ls

/-- JS `lines.join('\n')`. -/
def joinLines : List Str → Str
  | [] => []
  | [l] => l
  | l :: l' :: ls => l ++ '\n' :: joinLines (l' :: ls)

/-- JS `text.replace(/\r\n/g, '\n')`. -/
def replCRLF : Str → Str
  | [] => []
  | [c] => [c]
  | c₁ :: c₂ :: t =>
    if c₁ = '\r' ∧ c₂ = '\n' then '\n' :: replCRLF t
    else c₁ :: replCRLF (c₂ :: t)

/-- JS `line.startsWith('## ')`. -/
def startsWithHH (l : Str) : Bool := (str "## ").isPrefixOf l

/-- JS `s.toLowerCase()` (the repository only lowercases ASCII data:
category codes, color names and state codes). -/
def toLowerStr (s : Str) : Str := s.map Char.toLower

/-- JS string truthiness fallback `s || d`. -/
def strOr (s d : Str) : Str := if s = [] then d else s

/-- Reading a property of a JS object modelled as an association list. -/
def getEntry {β : Type} : List (Str × β) → Str → Option β
  | [], _ => none
  | e :: t, k => if e.1 = k then some e.2 else getEntry t k

/-- JS property assignment `obj[k] = v`: updates the value in place if the
key exists (keeping its position, as JS object key order does), otherwise
appends the new key at the end. -/
def setEntry {β : Type} : List (Str × β) → Str → β → List (Str × β)
  | [], k, v => [(k, v)]
  | e :: t, k, v => if e.1 = k then (k, v) :: t else e :: setEntry t k v

/-- The constant `NOTES_HEADER` from src/main.js. -/
def NOTES_HEADER : Str := str "# OyVai Daily Notes"

/-- Character class `[a-z0-9_-]` with the `i` flag, i.e. `[a-zA-Z0-9_-]`. -/
def isCodeChar (c : Char) : Bool :=
  c.isLower || c.isUpper || c.isDigit || c = '_' || c = '-'

/-- A well-formed category code body: `[a-z0-9_-]{1,8}` case-insensitive. -/
def validCode (cs : Str) : Bool :=
  decide (1 ≤ cs.length) && decide (cs.length ≤ 8) && cs.all isCodeChar

/-- The marker-matching core shared by the regexes of `stripCategoryMarkers`
(`/^(.*?)(?:\s*\{([a-z0-9_-]{1,8})\})\s*$/i`), `allLinesHaveMarkers` and
`mergeCategoryMarkers` (`/\{[a-z0-9_-]{1,8}\}\s*$/i`): a line matches iff its
last non-whitespace character is a closing brace whose matching opening brace
(the last opening brace before it) encloses a valid code.  On a match it
returns the part of the line before that opening brace together with the raw
(not yet lowercased) code. -/
def stripLineMarker (line : Str) : Option (Str × Str) :=
  match (line.reverse).dropWhile Char.isWhitespace with
  | [] => none
  | c0 :: rest =>
    if c0 = '\x7d' then
      match rest.dropWhile (fun c => decide (c ≠ '\x7b')) with
      | [] => none
      | c1 :: prefRev =>
        if c1 = '\x7b' then
          if validCode (rest.takeWhile (fun c => decide (c ≠ '\x7b'))).reverse then
            some (prefRev.reverse, (rest.takeWhile (fun c => decide (c ≠ '\x7b'))).reverse)
          else none
        else none
    else none

/-- The per-line action of `stripCategoryMarkers`: on a marker match, emit
the right-trimmed text before the marker and the lowercased code; otherwise
emit the line unchanged and `null` (here `none`). -/
def stripLine (line : Str) : Str × Option Str :=
  match stripLineMarker line with
  | some pc => (trimR pc.1, some (toLowerStr pc.2))
  | none => (line, none)

/-- `stripCategoryMarkers` from src/main.js: per line, remove a trailing
`{code}` marker (right-trimming what precedes it) and record the lowercased
code, or record `null` (here `none`) for an unmarked line. -/
def stripCategoryMarkers (text : Str) : Str × List (Option Str) :=
  let processed := (splitLines (replCRLF text)).map stripLine
  (joinLines (processed.map Prod.fst), processed.map Prod.snd)

/-- JS `l.replace(/^-\s*/, '')`: drop one leading dash and the whitespace
following it. -/
def stripLeadingDashWs : Str → Str
  | '-' :: t => t.dropWhile Char.isWhitespace
  | l => l

/-- `extractBulletBase` from src/main.js. -/
def extractBulletBase (text : Str) : Str × List Str :=
  let withoutMarkers := (stripCategoryMarkers text).1
  let lines := splitLines (replCRLF withoutMarkers)
  let bullets := ((lines.map trimS).filter fun l => decide (l ≠ [])).map
    fun l => trimS (stripLeadingDashWs l)
  (joinLines (bullets.map fun b => str "- " ++ b), bullets)

/-- `allLinesHaveMarkers` from src/main.js.  The JS test regex
`/\{[a-z0-9_-]{1,8}\}\s*$/i` matches a line iff `stripLineMarker` succeeds on
it (see the comment on `stripLineMarker`). -/
def allLinesHaveMarkers (text : Str) : Bool :=
  let lines := (splitLines (replCRLF text)).filter fun l => decide (trimS l ≠ [])
  decide (lines ≠ []) && lines.all fun l => (stripLineMarker l).isSome

/-- `applyMarkersToBullets` from src/main.js.  `codes` entries model the JS
array slots: an out-of-range index reads as `undefined`, which — like `null`
and `''` — is falsy and leaves the line bare; a truthy code is lowercased and
appended as a marker. -/
def applyMarkersToBullets (normalizedText : Str) (codes : List (Option Str)) : Str :=
  let lines := splitLines normalizedText
  joinLines <| lines.mapIdx fun i line =>
    let code := toLowerStr ((codes.getD i none).getD [])
    if code = [] then line else line ++ str " \x7b" ++ code ++ str "\x7d"

/-- `mergeCategoryMarkers` from src/main.js: strip the previous text's
positional code list; then, per line of the replacement, remove any manually
typed trailing marker (right-trimming), and reattach the code stored at the
same index, if any. -/
def mergeCategoryMarkers (previous nextNormalized : Str) : Str :=
  let prevCodes := (stripCategoryMarkers previous).2
  let nextLines := splitLines nextNormalized
  joinLines <| nextLines.mapIdx fun i line =>
    let base := trimR (match stripLineMarker line with
      | some pc => pc.1
      | none => line)
    match prevCodes.getD i none with
    | some c => if c = [] then base else base ++ str " \x7b" ++ c ++ str "\x7d"
    | none => base

/-- `normalizeBullets` from src/main.js. -/
def normalizeBullets (content : Str) : Str :=
  let lines := ((splitLines (replCRLF content)).map trimS).filter fun l => decide (l ≠ [])
  joinLines <| lines.map fun l =>
    if (str "- ").isPrefixOf l then l else str "- " ++ stripLeadingDashWs l

/-- `parseNotes`'s second loop from src/main.js, processing the lines after
the header: a `## ` line flushes the current section (JS only stores it when
`currentDate` is truthy, so both the initial `null` and an empty day key are
modelled by `[]`) and opens a new one; any other line is buffered.  The
buffer is kept reversed, as accumulation lists usually are. -/
def parseDays : List Str → Str → List Str → List (Str × Str) → List (Str × Str)
  | [], cur, buf, acc =>
    if cur = [] then acc else setEntry acc cur (trimS (joinLines buf.reverse))
  | l :: ls, cur, buf, acc =>
    if startsWithHH l then
      parseDays ls (trimS (l.drop 3)) []
        (if cur = [] then acc else setEntry acc cur (trimS (joinLines buf.reverse)))
    else parseDays ls cur (l :: buf) acc

/-- `parseNotes` from src/main.js: header lines are everything before the
first `## ` line; the rest is split into day sections, the last occurrence of
a repeated key winning. -/
def parseNotes (markdown : Str) : Str × List (Str × Str) :=
  let lines := splitLines (replCRLF markdown)
  let headerLines := lines.takeWhile fun l => !startsWithHH l
  let rest := lines.dropWhile fun l => !startsWithHH l
  let headerText := trimS (joinLines headerLines)
  (if headerText = [] then NOTES_HEADER else headerText, parseDays rest [] [] [])

/-- The key comparator of `buildNotesDocument`: numeric when both keys parse
as dates (`dp`, modelling `Date.parse`, returns `some` a timestamp), else the
locale comparison `lc` (modelling `localeCompare`).  As the specification
notes, this per-pair comparator need not induce a total order. -/
def notesCmp (dp : Str → Option Int) (lc : Str → Str → Int) (a b : Str) : Int :=
  match dp a, dp b with
  | some x, some y => x - y
  | _, _ => lc a b

/-- `buildNotesDocument` from src/main.js.  `Array.prototype.sort` with a
comparator is a stable sort per the ECMAScript specification; it is modelled
by the stable `List.insertionSort` on `notesCmp _ _ _ _ <= 0`. -/
def buildNotesDocument (dp : Str → Option Int) (lc : Str → Str → Int)
    (header : Str) (notesMap : List (Str × Str)) : Str :=
  let normalizedHeader := if trimS header ≠ [] then trimS header else NOTES_HEADER
  let entries := notesMap.insertionSort fun a b => notesCmp dp lc a.1 b.1 ≤ 0
  let sections := entries.filterMap fun e =>
    let trimmed := trimS e.2
    if trimmed = [] then none
    else some (str "## " ++ e.1 ++ str "\n\n" ++ trimmed)
  let body := List.intercalate (str "\n\n") sections
  if body = [] then normalizedHeader ++ ['\n']
  else normalizedHeader ++ '\n' :: '\n' :: body ++ ['\n']

/-! ### Taxonomy: states, overrides, customs -/

/-- A category state record `{code, title, description, color}`.  Stored
custom records are read back through string coercions with falsy fallbacks
(`s.title || 'Custom'` etc.), so all fields are plain strings here. -/
structure StateRec where
  code : Str
  title : Str
  description : Str
  color : Str
deriving DecidableEq, Repr

/-- A partial patch stored in `settings.stateOverrides`: only the fields the
user has updated are present. -/
structure OverridePatch where
  title : Option Str
  description : Option Str
  color : Option Str
deriving DecidableEq, Repr

/-- The persisted settings fields this core reads and writes. -/
structure Settings where
  notesFilePath : Str
  customStates : List StateRec
  stateOverrides : List (Str × OverridePatch)
deriving DecidableEq, Repr

/-- `getDefaultStates` from src/main.js. -/
def getDefaultStates : List StateRec :=
  [ { code := str "m", title := str "Mental",
      description := str "Thoughts, mood, clarity, stress, focus.", color := str "emerald" },
    { code := str "p", title := str "Physical",
      description := str "Body, energy, movement, sleep, pain.", color := str "sky" },
    { code := str "f", title := str "Financial",
      description := str "Money, spending, budgeting, income, risk.", color := str "amber" },
    { code := str "c", title := str "Career",
      description := str "Work, progress, skills, deliverables, team.", color := str "purple" },
    { code := str "u", title := str "Purpose",
      description := str "Meaning, values, long-term vision, alignment.", color := str "rose" },
    { code := str "r", title := str "Record",
      description := str "Raw capture, logs, observations, references.", color := str "cyan" } ]

/-- `getAllowedColors` from src/main.js. -/
def getAllowedColors : List Str :=
  [str "emerald", str "sky", str "amber", str "purple", str "rose", str "cyan", str "slate"]

/-- The decimal numeral used by the JS template literal interpolation of a
natural number (little-endian digits from `Nat.digits`, reversed into the
usual order; `0` prints as `"0"`). -/
def natToStr (n : Nat) : Str :=
  if n = 0 then ['0'] else (Nat.digits 10 n).reverse.map Nat.digitChar

/-- The numeric-suffix loop shared by `generateCodeFromTitle` and
`loadAllStates`: starting from candidate index `i`, return `base ++ i` for
the first `i` whose candidate is not used.  The loop in JS terminates because
only finitely many codes are used; here the same search is run with explicit
fuel, which (as proved below) never runs out when started with
`used.length + 1`. -/
def tryCodesFrom (base : Str) (used : List Str) : Nat → Nat → Str
  | 0, i => base ++ natToStr i
  | fuel + 1, i =>
    let c := base ++ natToStr i
    if c ∈ used then tryCodesFrom base used fuel (i + 1) else c

/-- The collision-resolution pattern of src/main.js: keep `base` if free,
else try `base2`, `base3`, ... -/
def resolveFreeCode (base : Str) (used : List Str) : Str :=
  if base ∈ used then tryCodesFrom base used (used.length + 1) 2 else base

/-- `generateCodeFromTitle` from src/main.js. -/
def generateCodeFromTitle (title : Str) (used : List Str) : Str :=
  let t := (toLowerStr title).filter fun c => c.isLower || c.isDigit
  let base := strOr (t.take 3) (str "s")
  resolveFreeCode base used

/-- The JS spread `{ ...s, ...(overrides[code] || {}), code }`. -/
def applyOverride (s : StateRec) (p : OverridePatch) (code : Str) : StateRec :=
  { code := code, title := p.title.getD s.title,
    description := p.description.getD s.description, color := p.color.getD s.color }

/-- The defaults pass of `loadAllStates`: each default, overlaid with its
override patch when present, with the (lowercased) default code forced. -/
def resolveDefaults (ov : List (Str × OverridePatch)) : List StateRec :=
  getDefaultStates.map fun s =>
    let code := toLowerStr s.code
    applyOverride s ((getEntry ov code).getD ⟨none, none, none⟩) code

/-- The customs pass of `loadAllStates`, threading the used-code set. -/
def resolveCustomsAux (used : List Str) : List StateRec → List StateRec
  | [] => []
  | s :: rest =>
    let base := strOr (toLowerStr (trimS s.code)) (generateCodeFromTitle s.title used)
    let code := resolveFreeCode base used
    { code := code, title := strOr s.title (str "Custom"),
      description := strOr s.description [], color := strOr s.color (str "slate") }
      :: resolveCustomsAux (used ++ [code]) rest

/-- `loadAllStates` from src/main.js. -/
def loadAllStates (settings : Settings) : List StateRec :=
  resolveDefaults settings.stateOverrides
    ++ resolveCustomsAux (getDefaultStates.map fun s => toLowerStr s.code)
      settings.customStates

/-! ### IPC handler models -/

/-- Result of the `states:update` handler: the settings after the call and
the reported success flag. -/
structure UpdateResult where
  settings : Settings
  success : Bool
deriving DecidableEq, Repr

/-- The `states:update` handler from src/main.js.  The payload fields model
the JS `typeof x === 'string'` presence checks with `Option`; a falsy `code`
(absent or empty) fails immediately. -/
def statesUpdate (settings : Settings) (code : Str)
    (title description color : Option Str) : UpdateResult :=
  if code = [] then ⟨settings, false⟩
  else
    let c := toLowerStr code
    match settings.customStates.findIdx? fun s => toLowerStr s.code = c with
    | some idx =>
      let s := settings.customStates.getD idx ⟨[], [], [], []⟩
      let next : StateRec :=
        { s with
          title := title.getD s.title,
          description := description.getD s.description,
          color := match color with
            | some col =>
              if toLowerStr col ∈ getAllowedColors then toLowerStr col else s.color
            | none => s.color }
      ⟨{ settings with customStates := settings.customStates.set idx next }, true⟩
    | none =>
      let old := (getEntry settings.stateOverrides c).getD ⟨none, none, none⟩
      let next : OverridePatch :=
        { title := match title with | some t => some t | none => old.title,
          description := match description with | some d => some d | none => old.description,
          color := match color with
            | some col =>
              if toLowerStr col ∈ getAllowedColors then some (toLowerStr col) else old.color
            | none => old.color }
      ⟨{ settings with stateOverrides := setEntry settings.stateOverrides c next }, true⟩

/-- Result of the `notes:load` handler.  `categories` is `none` when the
handler returns early (no configured path), modelling the absent field. -/
structure LoadResult where
  content : Str
  categories : Option (List (Option Str))
deriving DecidableEq, Repr

/-- The `notes:load` handler from src/main.js, given the document text the
handler reads from disk (after `ensureNotesFile`). -/
def notesLoad (hasPath : Bool) (markdown dateKey : Str) : LoadResult :=
  if !hasPath then ⟨[], none⟩
  else
    let raw := (getEntry (parseNotes markdown).2 dateKey).getD []
    let stripped := stripCategoryMarkers raw
    ⟨stripped.1, some stripped.2⟩

/-- Result of the `notes:analyze-day` handler.  `written` is the document
text written back, `none` when nothing is persisted; `classifierCalled`
records whether `classifyBulletsWithOpenAI` was invoked. -/
structure AnalyzeDayResult where
  success : Bool
  skipped : Bool
  reason : Option Str
  written : Option Str
  classifierCalled : Bool
deriving DecidableEq, Repr

/-- The `notes:analyze-day` handler from src/main.js.  `hasPath` and
`hasKey` model the `settings.notesFilePath` and `getOpenAIKey()` guards;
`classify` is the external classifier oracle (the value
`classifyBulletsWithOpenAI` resolves with: `none` for a null/failed result,
`some labels` otherwise). -/
def analyzeDay (dp : Str → Option Int) (lc : Str → Str → Int)
    (hasPath hasKey : Bool) (markdown dateKey : Str) (force : Bool)
    (classify : List Str → Option (List Str)) : AnalyzeDayResult :=
  if !hasPath then ⟨false, false, some (str "NO_PATH"), none, false⟩
  else if !hasKey then ⟨false, false, some (str "NO_OPENAI_KEY"), none, false⟩
  else
    let parsed := parseNotes markdown
    let dayContent := trimS ((getEntry parsed.2 dateKey).getD [])
    if dayContent = [] then ⟨false, false, some (str "EMPTY"), none, false⟩
    else if !force && allLinesHaveMarkers dayContent then ⟨true, true, none, none, false⟩
    else
      let eb := extractBulletBase dayContent
      if eb.2 = [] then ⟨false, false, some (str "NO_BULLETS"), none, false⟩
      else
        match classify eb.2 with
        | none => ⟨false, false, some (str "CLASSIFY_FAILED"), none, true⟩
        | some codes =>
          if codes.length ≠ eb.2.length then
            ⟨false, false, some (str "CLASSIFY_FAILED"), none, true⟩
          else
            let notes' := setEntry parsed.2 dateKey
              (applyMarkersToBullets eb.1 (codes.map some))
            ⟨true, false, none, some (buildNotesDocument dp lc parsed.1 notes'), true⟩

/-- Result of the `notes:analyze-all` handler.  `written` is the single
document write (if any); `notifiedAll` records the single
`broadcastNotesUpdated(null)` global-refresh notification. -/
structure AnalyzeAllResult where
  success : Bool
  reason : Option Str
  updated : Nat
  written : Option Str
  notifiedAll : Bool
deriving DecidableEq, Repr

/-- The per-key loop of `notes:analyze-all`: iterate the snapshot of day
keys; for each, re-read the (possibly already rewritten) notes object, apply
the per-day steps, and count the days actually updated.  A classifier
failure (`none`, covering both a null result and a caught exception) or a
label-count mismatch leaves that day untouched and the sweep continues. -/
def analyzeAllGo (classify : Str → List Str → Option (List Str)) (force : Bool) :
    List Str → List (Str × Str) → Nat → List (Str × Str) × Nat
  | [], notes, updated => (notes, updated)
  | k :: ks, notes, updated =>
    let content := trimS ((getEntry notes k).getD [])
    if content = [] then analyzeAllGo classify force ks notes updated
    else if !force && allLinesHaveMarkers content then
      analyzeAllGo classify force ks notes updated
    else
      let eb := extractBulletBase content
      if eb.2 = [] then analyzeAllGo classify force ks notes updated
      else
        match classify k eb.2 with
        | some codes =>
          if codes.length = eb.2.length then
            analyzeAllGo classify force ks
              (setEntry notes k (applyMarkersToBullets eb.1 (codes.map some)))
              (updated + 1)
          else analyzeAllGo classify force ks notes updated
        | none => analyzeAllGo classify force ks notes updated

/-- The `notes:analyze-all` handler from src/main.js: run the sweep, then
persist and broadcast (with a null day key) once, and only if at least one
day was updated. -/
def analyzeAll (dp : Str → Option Int) (lc : Str → Str → Int)
    (hasPath hasKey : Bool) (markdown : Str) (force : Bool)
    (classify : Str → List Str → Option (List Str)) : AnalyzeAllResult :=
  if !hasPath then ⟨false, some (str "NO_PATH"), 0, none, false⟩
  else if !hasKey then ⟨false, some (str "NO_OPENAI_KEY"), 0, none, false⟩
  else
    let parsed := parseNotes markdown
    let keys := parsed.2.map Prod.fst
    let swept := analyzeAllGo classify force keys parsed.2 0
    if 0 < swept.2 then
      ⟨true, none, swept.2, some (buildNotesDocument dp lc parsed.1 swept.1), true⟩
    else ⟨true, none, swept.2, none, false⟩

/-- Characterization used to state claim C8 (written from the specified
sweep behaviour, to be proved equal to the implementation): a stored day is
updated iff its trimmed content is nonempty, is not skipped by the
idempotency gate, yields at least one bullet, and the classifier returns a
label list of matching length for it. -/
def sweepDayUpdated (classify : Str → List Str → Option (List Str)) (force : Bool)
    (e : Str × Str) : Bool :=
  let content := trimS e.2
  if content = [] then false
  else if !force && allLinesHaveMarkers content then false
  else
    let eb := extractBulletBase content
    if eb.2 = [] then false
    else
      match classify e.1 eb.2 with
      | some codes => codes.length = eb.2.length
      | none => false

/-- Companion to `sweepDayUpdated`: the per-day result of the sweep, again
written from the specified behaviour. -/
def sweepDayResult (classify : Str → List Str → Option (List Str)) (force : Bool)
    (e : Str × Str) : Str × Str :=
  if sweepDayUpdated classify force e then
    let eb := extractBulletBase (trimS e.2)
    (e.1, applyMarkersToBullets eb.1 (((classify e.1 eb.2).getD []).map some))
  else e

/-! ### Predicates and helpers used to state the claims -/

/-- Concrete instantiation of the external `Date.parse` collaborator used in
closed statements: nothing parses as a date. -/
def dpNone : Str → Option Int := fun _ => none

/-- Concrete instantiation of the external `localeCompare` collaborator used
in closed statements. -/
def lcZero : Str → Str → Int := fun _ _ => 0

/-- Well-formedness of a header for the round-trip claims: already trimmed,
nonempty, free of carriage returns, and with no line that opens a day
section. -/
def goodHeader (h : Str) : Prop :=
  trimS h = h ∧ h ≠ [] ∧ '\r' ∉ h ∧ ∀ l ∈ splitLines h, startsWithHH l = false

/-- Well-formedness of a day key: already trimmed, nonempty (`parseNotes`
drops a section whose key is the falsy empty string), and free of line
breaks. -/
def goodKey (k : Str) : Prop :=
  trimS k = k ∧ k ≠ [] ∧ '\n' ∉ k ∧ '\r' ∉ k

/-- Well-formedness of a day value for the round-trip claim: already
trimmed, nonempty, free of carriage returns, and with no line that opens a
day section. -/
def goodValue (v : Str) : Prop :=
  trimS v = v ∧ v ≠ [] ∧ '\r' ∉ v ∧ ∀ l ∈ splitLines v, startsWithHH l = false

/-- Structural sanity of an arbitrary (possibly blank) day value: free of
carriage returns, and no line of its trimmed form opens a day section. -/
def tameValue (v : Str) : Prop :=
  '\r' ∉ v ∧ ∀ l ∈ splitLines (trimS v), startsWithHH l = false

/-- The line list of one rendered day section, followed by the blank line
separating it from what comes next (used to describe `buildNotesDocument`'s
output to `parseNotes`). -/
def sectionChunk (e : Str × Str) : List Str :=
  (str "## " ++ e.1) :: [] :: (splitLines e.2 ++ [[]])

/-- Modelled from the spec for claim C2: line `i` of the merge output is the
replacement line with any trailing marker stripped (right-trimmed), with the
previous text's code at index `i` reattached when present. -/
def mergeLineSpec (prevCodes : List (Option Str)) (i : Nat) (line : Str) : Str :=
  let base := trimR (match stripLineMarker line with
    | some pc => pc.1
    | none => line)
  match prevCodes.getD i none with
  | some c => if c = [] then base else base ++ str " \x7b" ++ c ++ str "\x7d"
  | none => base

/-- Canonical-form lines for the strip/apply round trip of claim C5: either
the marker pattern does not match at all, or the line is exactly a base with
no trailing whitespace followed by a single space and a lowercase marker. -/
def canonicalLine (l : Str) : Prop :=
  stripLineMarker l = none ∨
    ∃ b c : Str, l = b ++ str " \x7b" ++ c ++ str "\x7d" ∧ validCode c = true ∧
      toLowerStr c = c ∧ trimR b = b

/-- Truncate or pad a code list to exactly `n` slots (absent slots read as
`undefined`, i.e. `none`); used to state how `applyMarkersToBullets` treats a
code list whose length disagrees with the line count. -/
def fitCodes (n : Nat) (codes : List (Option Str)) : List (Option Str) :=
  codes.take n ++ List.replicate (n - codes.length) none

/-- Modelled from the `states:update` handler's patch merge for claim C7:
the override entry resulting from merging the present payload fields over an
existing (or fresh) override patch. -/
def mergedOverridePatch (old : OverridePatch)
    (title description color : Option Str) : OverridePatch :=
  { title := match title with | some t => some t | none => old.title,
    description := match description with | some d => some d | none => old.description,
    color := match color with
      | some col =>
        if toLowerStr col ∈ getAllowedColors then some (toLowerStr col) else old.color
      | none => old.color }

/-- Modelled from the `states:update` handler's custom branch for claim C7:
the matched custom record after merging only the present payload fields over
it (an absent field keeps the stored value; a disallowed color is ignored;
the stored code is untouched). -/
def mergedCustomState (s : StateRec) (title description color : Option Str) : StateRec :=
  { s with
    title := title.getD s.title,
    description := description.getD s.description,
    color := match color with
      | some col =>
        if toLowerStr col ∈ getAllowedColors then toLowerStr col else s.color
      | none => s.color }

/-! ### Basic line-splitting lemmas -/

theorem splitLines_ne_nil : ∀ s : Str, splitLines s ≠ []
  | [] => by simp [splitLines]
  | c :: t => by
    by_cases h : c = '\n'
    · simp [splitLines, h]
    · simp only [splitLines, if_neg h]
      cases ht : splitLines t <;> simp

theorem joinLines_splitLines : ∀ s : Str, joinLines (splitLines s) = s
  | [] => rfl
  | c :: t => by
    have ih := joinLines_splitLines t
    by_cases h : c = '\n'
    · subst h
      simp only [splitLines, if_pos rfl]
      cases ht : splitLines t with
      | nil => exact absurd ht (splitLines_ne_nil t)
      | cons l ls =>
        rw [ht] at ih
        simpa [joinLines] using ih
    · simp only [splitLines, if_neg h]
      cases ht : splitLines t with
      | nil => exact absurd ht (splitLines_ne_nil t)
      | cons l ls =>
        rw [ht] at ih
        cases ls with
        | nil =>
          simp only [joinLines] at ih ⊢
          rw [ih]
        | cons l' ls' =>
          simp only [joinLines] at ih ⊢
          rw [List.cons_append, ih]

theorem newline_not_mem_splitLines : ∀ s : Str, ∀ l ∈ splitLines s, '\n' ∉ l
  | [], l, hl => by
    simp [splitLines] at hl
    simp [hl]
  | c :: t, l, hl => by
    by_cases h : c = '\n'
    · simp only [splitLines, if_pos h, List.mem_cons] at hl
      rcases hl with rfl | hl
      · simp
      · exact newline_not_mem_splitLines t l hl
    · simp only [splitLines, if_neg h] at hl
      cases ht : splitLines t with
      | nil => exact absurd ht (splitLines_ne_nil t)
      | cons l₀ ls =>
        rw [ht] at hl
        rcases List.mem_cons.mp hl with rfl | hl'
        · intro hmem
          rcases List.mem_cons.mp hmem with rfl | hmem'
          · exact h rfl
          · exact newline_not_mem_splitLines t l₀ (ht ▸ List.mem_cons_self _ _) hmem'
        · exact newline_not_mem_splitLines t l (ht ▸ List.mem_cons_of_mem _ hl')

theorem splitLines_of_not_mem : ∀ l : Str, '\n' ∉ l → splitLines l = [l]
  | [], _ => rfl
  | c :: t, h => by
    have hc : c ≠ '\n' := fun e => h (e ▸ List.mem_cons_self _ _)
    have ht : splitLines t = [t] :=
      splitLines_of_not_mem t fun m => h (List.mem_cons_of_mem _ m)
    simp [splitLines, hc, ht]

theorem splitLines_append_newline :
    ∀ l : Str, '\n' ∉ l → ∀ t : Str, splitLines (l ++ '\n' :: t) = l :: splitLines t
  | [], _, t => by simp [splitLines]
  | c :: l, h, t => by
    have hc : c ≠ '\n' := fun e => h (e ▸ List.mem_cons_self _ _)
    have ih := splitLines_append_newline l (fun m => h (List.mem_cons_of_mem _ m)) t
    simp only [List.cons_append, splitLines, if_neg hc, List.append_eq]
    rw [ih]

theorem splitLines_joinLines :
    ∀ ls : List Str, ls ≠ [] → (∀ l ∈ ls, '\n' ∉ l) → splitLines (joinLines ls) = ls
  | [], h, _ => absurd rfl h
  | [l], _, hm => by
    simp only [joinLines]
    exact splitLines_of_not_mem l (hm l (List.mem_cons_self _ _))
  | l :: l' :: ls, _, hm => by
    have ih := splitLines_joinLines (l' :: ls) (by simp)
      (fun x hx => hm x (List.mem_cons_of_mem _ hx))
    simp only [joinLines]
    rw [splitLines_append_newline l (hm l (List.mem_cons_self _ _)), ih]

theorem joinLines_append :
    ∀ A B : List Str, A ≠ [] → B ≠ [] →
      joinLines (A ++ B) = joinLines A ++ '\n' :: joinLines B
  | [], _, hA, _ => absurd rfl hA
  | [l], B, _, hB => by
    cases B with
    | nil => exact absurd rfl hB
    | cons b bs => simp [joinLines]
  | l :: l' :: ls, B, _, hB => by
    have ih := joinLines_append (l' :: ls) B (by simp) hB
    calc joinLines ((l :: l' :: ls) ++ B)
        = l ++ '\n' :: joinLines ((l' :: ls) ++ B) := rfl
      _ = l ++ '\n' :: (joinLines (l' :: ls) ++ '\n' :: joinLines B) := by rw [ih]
      _ = (l ++ '\n' :: joinLines (l' :: ls)) ++ '\n' :: joinLines B := by simp
      _ = joinLines (l :: l' :: ls) ++ '\n' :: joinLines B := rfl

theorem mem_of_mem_joinLines :
    ∀ ls : List Str, ∀ c : Char, c ∈ joinLines ls → c = '\n' ∨ ∃ l ∈ ls, c ∈ l
  | [], c, h => by simp [joinLines] at h
  | [l], c, h => by
    right
    exact ⟨l, List.mem_cons_self _ _, h⟩
  | l :: l' :: ls, c, h => by
    simp only [joinLines, List.mem_append, List.mem_cons] at h
    rcases h with h | h | h
    · exact Or.inr ⟨l, List.mem_cons_self _ _, h⟩
    · exact Or.inl h
    · rcases mem_of_mem_joinLines (l' :: ls) c h with h' | ⟨x, hx, hcx⟩
      · exact Or.inl h'
      · exact Or.inr ⟨x, List.mem_cons_of_mem _ hx, hcx⟩

theorem replCRLF_eq_self : ∀ s : Str, '\r' ∉ s → replCRLF s = s
  | [], _ => rfl
  | [c], _ => rfl
  | c₁ :: c₂ :: t, h => by
    have hc : c₁ ≠ '\r' := fun e => h (e ▸ List.mem_cons_self _ _)
    have ih := replCRLF_eq_self (c₂ :: t) fun m => h (List.mem_cons_of_mem _ m)
    simp only [replCRLF, ih, if_neg (fun hand : c₁ = '\r' ∧ c₂ = '\n' => hc hand.1)]

/-! ### Trimming lemmas -/

theorem trimL_cons_ws {c : Char} (hc : c.isWhitespace) (s : Str) :
    trimL (c :: s) = trimL s := by
  simp [trimL, List.dropWhile_cons, hc]

theorem trimR_append_ws {c : Char} (hc : c.isWhitespace) (s : Str) :
    trimR (s ++ [c]) = trimR s := by
  simp [trimR, List.dropWhile_cons, hc]

theorem trimR_eq_nil_iff {s : Str} : trimR s = [] ↔ ∀ c ∈ s, c.isWhitespace := by
  simp [trimR, List.dropWhile_eq_nil_iff]

theorem trimL_eq_nil_iff {s : Str} : trimL s = [] ↔ ∀ c ∈ s, c.isWhitespace := by
  simp [trimL, List.dropWhile_eq_nil_iff]

theorem trimR_cons (c : Char) (s : Str) :
    trimR (c :: s) =
      if trimR s = [] then (if c.isWhitespace then [] else [c]) else c :: trimR s := by
  have hrw : trimR (c :: s) = ((s.reverse ++ [c]).dropWhile Char.isWhitespace).reverse := by
    simp [trimR]
  rw [hrw, List.dropWhile_append]
  by_cases h : s.reverse.dropWhile Char.isWhitespace = []
  · have h2 : trimR s = [] := by simp [trimR, h]
    by_cases hc : c.isWhitespace <;> simp [h, h2, List.dropWhile_cons, hc]
  · have h2 : trimR s ≠ [] := fun e => h (by simpa [trimR] using congrArg List.reverse e)
    simp [trimR, List.isEmpty_iff, h, h2]

theorem trimS_cons_ws {c : Char} (hc : c.isWhitespace) (s : Str) :
    trimS (c :: s) = trimS s := by
  unfold trimS
  rw [trimR_cons]
  by_cases h : trimR s = []
  · simp [h, hc, trimL]
  · simp [h, trimL_cons_ws hc]

theorem trimS_append_ws {c : Char} (hc : c.isWhitespace) (s : Str) :
    trimS (s ++ [c]) = trimS s := by
  unfold trimS
  rw [trimR_append_ws hc]

theorem dropWhile_self_idem {p : Char → Bool} : ∀ s : Str,
    (s.dropWhile p).dropWhile p = s.dropWhile p
  | [] => rfl
  | c :: t => by
    by_cases h : p c
    · simp [List.dropWhile_cons, h, dropWhile_self_idem t]
    · simp [List.dropWhile_cons, h]

theorem trimL_idem (s : Str) : trimL (trimL s) = trimL s :=
  dropWhile_self_idem s

theorem trimR_idem (s : Str) : trimR (trimR s) = trimR s := by
  simp [trimR, dropWhile_self_idem]

theorem trimL_trimR_comm : ∀ s : Str, trimL (trimR s) = trimR (trimL s)
  | [] => rfl
  | c :: t => by
    have ih := trimL_trimR_comm t
    by_cases hc : c.isWhitespace
    · rw [trimR_cons]
      by_cases h : trimR t = []
      · have htL : trimL t = [] := trimL_eq_nil_iff.mpr (trimR_eq_nil_iff.mp h)
        rw [if_pos h, if_pos hc, trimL_cons_ws hc, htL]
        rfl
      · simp [h, trimL_cons_ws hc, ih, trimL_cons_ws hc]
    · have hL : trimL (c :: t) = c :: t := by simp [trimL, List.dropWhile_cons, hc]
      rw [trimR_cons, hL]
      by_cases h : trimR t = []
      · simp [h, hc, trimL, List.dropWhile_cons, trimR_cons]
      · simp [h, trimL, List.dropWhile_cons, hc, trimR_cons]

theorem trimS_idem (s : Str) : trimS (trimS s) = trimS s := by
  show trimL (trimR (trimL (trimR s))) = trimL (trimR s)
  rw [← trimL_trimR_comm (trimR s), trimL_idem, trimR_idem]

theorem mem_of_mem_trimR {x : Char} {s : Str} (h : x ∈ trimR s) : x ∈ s := by
  have := (List.dropWhile_sublist (l := s.reverse) Char.isWhitespace).subset
  rw [trimR, List.mem_reverse] at h
  exact List.mem_reverse.mp (this h)

theorem mem_of_mem_trimS {x : Char} {s : Str} (h : x ∈ trimS s) : x ∈ s := by
  rw [trimS, trimL] at h
  exact mem_of_mem_trimR ((List.dropWhile_sublist Char.isWhitespace).subset h)

/-! ### Association-list lemmas -/

theorem getEntry_eq_some_mem {β : Type} :
    ∀ {m : List (Str × β)} {k : Str} {v : β}, getEntry m k = some v → (k, v) ∈ m
  | [], k, v, h => by simp [getEntry] at h
  | e :: t, k, v, h => by
    by_cases he : e.1 = k
    · simp only [getEntry, if_pos he] at h
      obtain rfl : e.2 = v := Option.some_injective _ h
      exact List.mem_cons.mpr (Or.inl (by rw [← he]))
    · simp only [getEntry, if_neg he] at h
      exact List.mem_cons_of_mem _ (getEntry_eq_some_mem h)

theorem mem_getEntry_of_nodup {β : Type} :
    ∀ {m : List (Str × β)}, (m.map Prod.fst).Nodup →
      ∀ {k : Str} {v : β}, (k, v) ∈ m → getEntry m k = some v
  | [], _, k, v, h => by simp at h
  | e :: t, nd, k, v, h => by
    rw [List.map_cons, List.nodup_cons] at nd
    rcases List.mem_cons.mp h with rfl | hmem
    · simp [getEntry]
    · have hk : k ∈ t.map Prod.fst := List.mem_map.mpr ⟨(k, v), hmem, rfl⟩
      have he : e.1 ≠ k := fun e1 => nd.1 (e1 ▸ hk)
      simp only [getEntry, if_neg he]
      exact mem_getEntry_of_nodup nd.2 hmem

theorem getEntry_eq_none_iff {β : Type} :
    ∀ {m : List (Str × β)} {k : Str}, getEntry m k = none ↔ k ∉ m.map Prod.fst
  | [], k => by simp [getEntry]
  | e :: t, k => by
    rw [List.map_cons]
    by_cases he : e.1 = k
    · simp only [getEntry, if_pos he]
      exact ⟨fun h => absurd h (by simp),
        fun h => absurd (List.mem_cons.mpr (Or.inl he.symm)) h⟩
    · simp only [getEntry, if_neg he]
      rw [getEntry_eq_none_iff (m := t) (k := k), List.mem_cons]
      constructor
      · intro h hk
        rcases hk with hk | hk
        · exact he hk.symm
        · exact h hk
      · intro h hk
        exact h (Or.inr hk)

theorem getEntry_congr_perm {β : Type} {m₁ m₂ : List (Str × β)}
    (hp : m₁.Perm m₂) (nd : (m₁.map Prod.fst).Nodup) (k : Str) :
    getEntry m₁ k = getEntry m₂ k := by
  have nd₂ : (m₂.map Prod.fst).Nodup := ((hp.map Prod.fst).nodup_iff).mp nd
  cases h : getEntry m₁ k with
  | some v => exact (mem_getEntry_of_nodup nd₂ (hp.mem_iff.mp (getEntry_eq_some_mem h))).symm
  | none =>
    have : k ∉ m₂.map Prod.fst := fun hk =>
      getEntry_eq_none_iff.mp h ((hp.map Prod.fst).mem_iff.mpr hk)
    exact (getEntry_eq_none_iff.mpr this).symm

theorem setEntry_of_not_mem {β : Type} :
    ∀ {m : List (Str × β)} {k : Str}, k ∉ m.map Prod.fst →
      ∀ v : β, setEntry m k v = m ++ [(k, v)]
  | [], k, _, v => rfl
  | e :: t, k, h, v => by
    have he : e.1 ≠ k := by
      intro e1
      exact h (List.mem_map.mpr ⟨e, List.mem_cons_self _ _, e1⟩)
    simp only [setEntry, if_neg he, List.cons_append]
    rw [setEntry_of_not_mem
      (fun hm => h (by rw [List.map_cons]; exact List.mem_cons_of_mem _ hm))]

theorem mem_setEntry {β : Type} :
    ∀ {m : List (Str × β)} {k : Str} {v : β} {e : Str × β},
      e ∈ setEntry m k v → e ∈ m ∨ e = (k, v)
  | [], k, v, e, h => by simpa [setEntry] using h
  | e' :: t, k, v, e, h => by
    by_cases he : e'.1 = k
    · simp only [setEntry, if_pos he, List.mem_cons] at h
      rcases h with rfl | h
      · exact Or.inr rfl
      · exact Or.inl (List.mem_cons_of_mem _ h)
    · simp only [setEntry, if_neg he, List.mem_cons] at h
      rcases h with rfl | h
      · exact Or.inl (List.mem_cons_self _ _)
      · rcases mem_setEntry h with h' | h'
        · exact Or.inl (List.mem_cons_of_mem _ h')
        · exact Or.inr h'

theorem getEntry_setEntry_self {β : Type} :
    ∀ (m : List (Str × β)) (k : Str) (v : β), getEntry (setEntry m k v) k = some v
  | [], k, v => by simp [setEntry, getEntry]
  | e :: t, k, v => by
    by_cases he : e.1 = k
    · simp [setEntry, he, getEntry]
    · simp [setEntry, he, getEntry, getEntry_setEntry_self t k v]

theorem getEntry_setEntry_ne {β : Type} :
    ∀ (m : List (Str × β)) (k k' : Str) (v : β), k' ≠ k →
      getEntry (setEntry m k v) k' = getEntry m k'
  | [], k, k', v, h => by
    simp only [setEntry, getEntry, if_neg (fun hk : k = k' => h hk.symm)]
  | e :: t, k, k', v, h => by
    by_cases he : e.1 = k
    · have he' : e.1 ≠ k' := by rw [he]; exact fun hk => h hk.symm
      simp only [setEntry, if_pos he, getEntry,
        if_neg (fun hk : k = k' => h hk.symm), if_neg he']
    · simp only [setEntry, if_neg he, getEntry]
      by_cases he' : e.1 = k'
      · simp [he']
      · simp [he', getEntry_setEntry_ne t k k' v h]

theorem getEntry_append_left_not_mem {β : Type} :
    ∀ (A : List (Str × β)) {k : Str}, k ∉ A.map Prod.fst →
      ∀ B, getEntry (A ++ B) k = getEntry B k
  | [], _, _, _ => rfl
  | e :: t, k, h, B => by
    have he : e.1 ≠ k := fun e1 => h (List.mem_map.mpr ⟨e, List.mem_cons_self _ _, e1⟩)
    simp only [List.cons_append, getEntry, if_neg he]
    exact getEntry_append_left_not_mem t
      (fun hm => h (by simp only [List.map_cons, List.mem_cons]; exact Or.inr hm)) B

theorem setEntry_append_left_not_mem {β : Type} :
    ∀ (A : List (Str × β)) {k : Str}, k ∉ A.map Prod.fst →
      ∀ B (v : β), setEntry (A ++ B) k v = A ++ setEntry B k v
  | [], _, _, _, _ => rfl
  | e :: t, k, h, B, v => by
    have he : e.1 ≠ k := fun e1 => h (List.mem_map.mpr ⟨e, List.mem_cons_self _ _, e1⟩)
    simp only [List.cons_append, setEntry, if_neg he, List.append_eq]
    rw [setEntry_append_left_not_mem t
      (fun hm => h (by simp only [List.map_cons, List.mem_cons]; exact Or.inr hm)) B v]

theorem foldl_setEntry_eq_append :
    ∀ (es acc : List (Str × Str)), (∀ e ∈ es, e.1 ∉ acc.map Prod.fst) →
      (es.map Prod.fst).Nodup →
      es.foldl (fun a e => setEntry a e.1 e.2) acc = acc ++ es
  | [], acc, _, _ => by simp
  | e :: es', acc, hdisj, nd => by
    rw [List.map_cons, List.nodup_cons] at nd
    have h1 : e.1 ∉ acc.map Prod.fst := hdisj e (List.mem_cons_self _ _)
    have hset : setEntry acc e.1 e.2 = acc ++ [e] := by
      rw [setEntry_of_not_mem h1]
    have hnd' : (es'.map Prod.fst).Nodup := nd.2
    have hhead : e.1 ∉ es'.map Prod.fst := nd.1
    have hdisj' : ∀ e' ∈ es', e'.1 ∉ (acc ++ [e]).map Prod.fst := by
      intro e' he'
      simp only [List.map_append, List.mem_append, List.map_cons, List.map_nil,
        List.mem_singleton]
      rintro (hm | hm)
      · exact hdisj e' (List.mem_cons_of_mem _ he') hm
      · exact hhead (hm ▸ List.mem_map.mpr ⟨e', he', rfl⟩)
    calc (e :: es').foldl (fun a e => setEntry a e.1 e.2) acc
        = es'.foldl (fun a e => setEntry a e.1 e.2) (acc ++ [e]) := by
          simp [List.foldl_cons, hset]
      _ = (acc ++ [e]) ++ es' := foldl_setEntry_eq_append es' (acc ++ [e]) hdisj' hnd'
      _ = acc ++ e :: es' := by simp

/-! ### takeWhile and dropWhile helpers -/

theorem takeWhile_append_of_all {α : Type} {p : α → Bool} :
    ∀ (A : List α), (∀ x ∈ A, p x) → ∀ B, (A ++ B).takeWhile p = A ++ B.takeWhile p
  | [], _, B => rfl
  | a :: t, h, B => by
    have ha : p a := h a (List.mem_cons_self _ _)
    simp only [List.cons_append, List.takeWhile_cons, ha, if_true]
    rw [takeWhile_append_of_all t (fun x hx => h x (List.mem_cons_of_mem _ hx)) B]

theorem dropWhile_append_of_all {α : Type} {p : α → Bool} :
    ∀ (A : List α), (∀ x ∈ A, p x) → ∀ B, (A ++ B).dropWhile p = B.dropWhile p
  | [], _, B => rfl
  | a :: t, h, B => by
    have ha : p a := h a (List.mem_cons_self _ _)
    simp only [List.cons_append, List.dropWhile_cons, ha, if_true]
    exact dropWhile_append_of_all t (fun x hx => h x (List.mem_cons_of_mem _ hx)) B

/-! ### Marker lemmas -/

theorem isCodeChar_ne {c : Char} (h : isCodeChar c = true) :
    c ≠ '\n' ∧ c ≠ '\r' ∧ c ≠ '\x7b' ∧ c ≠ '\x7d' := by
  refine ⟨?_, ?_, ?_, ?_⟩ <;> rintro rfl <;> exact absurd h (by decide)

theorem validCode_mem_isCodeChar {c : Str} (h : validCode c = true) :
    ∀ x ∈ c, isCodeChar x = true := by
  unfold validCode at h
  simp only [Bool.and_eq_true, List.all_eq_true] at h
  exact h.2

theorem newline_not_mem_of_validCode {c : Str} (h : validCode c = true) : '\n' ∉ c :=
  fun hm => (isCodeChar_ne (validCode_mem_isCodeChar h _ hm)).1 rfl

theorem char_ofNat_lower_ne_newline : ∀ m : Nat, m < 123 → 97 ≤ m → Char.ofNat m ≠ '\n' := by
  decide

theorem toLower_ne_newline {ch : Char} (h : ch ≠ '\n') : ch.toLower ≠ '\n' := by
  show (if ch.toNat ≥ 65 ∧ ch.toNat ≤ 90 then Char.ofNat (ch.toNat + 32) else ch) ≠ '\n'
  by_cases hn : ch.toNat ≥ 65 ∧ ch.toNat ≤ 90
  · rw [if_pos hn]
    exact char_ofNat_lower_ne_newline (ch.toNat + 32) (by omega) (by omega)
  · rwa [if_neg hn]

theorem newline_not_mem_toLowerStr {s : Str} (hs : '\n' ∉ s) : '\n' ∉ toLowerStr s := by
  intro hm
  rcases List.mem_map.mp hm with ⟨x, hx, he⟩
  exact toLower_ne_newline (fun e => hs (e ▸ hx)) he

theorem stripLineMarker_some {line pref code : Str}
    (h : stripLineMarker line = some (pref, code)) :
    validCode code = true ∧ ∀ x ∈ pref, x ∈ line := by
  unfold stripLineMarker at h
  split at h
  · exact absurd h (by simp)
  · rename_i c0 rest heq
    split at h
    · split at h
      · exact absurd h (by simp)
      · rename_i c1 prefRev heq2
        split at h
        · split at h
          · rename_i hvalid
            rw [Option.some_inj, Prod.mk.injEq] at h
            obtain ⟨rfl, rfl⟩ := h
            refine ⟨hvalid, ?_⟩
            have s1 : (c0 :: rest).Sublist line.reverse :=
              heq ▸ List.dropWhile_sublist _
            have s2 : (c1 :: prefRev).Sublist rest :=
              heq2 ▸ List.dropWhile_sublist _
            have s3 : prefRev.Sublist line.reverse :=
              ((List.sublist_cons_self _ _).trans s2).trans
                ((List.sublist_cons_self _ _).trans s1)
            intro x hx
            exact List.mem_reverse.mp (s3.subset (List.mem_reverse.mp hx))
          · exact absurd h (by simp)
        · exact absurd h (by simp)
    · exact absurd h (by simp)

theorem stripLineMarker_canonical (b c : Str) (hc : validCode c = true) :
    stripLineMarker (b ++ str " \x7b" ++ c ++ str "\x7d") = some (b ++ [' '], c) := by
  have hrev : (b ++ str " \x7b" ++ c ++ str "\x7d").reverse =
      '\x7d' :: (c.reverse ++ '\x7b' :: ' ' :: b.reverse) := by
    simp [str, List.reverse_append]
  have hallp : ∀ x ∈ c.reverse, (decide (x ≠ '\x7b')) = true := by
    intro x hx
    simp only [decide_eq_true_eq]
    exact (isCodeChar_ne (validCode_mem_isCodeChar hc _ (List.mem_reverse.mp hx))).2.2.1
  have hdropws : List.dropWhile Char.isWhitespace
      ((b ++ str " \x7b" ++ c ++ str "\x7d").reverse) =
      '\x7d' :: (c.reverse ++ '\x7b' :: ' ' :: b.reverse) := by
    rw [hrev, List.dropWhile_cons, if_neg (by decide)]
  have htake : List.takeWhile (fun x => decide (x ≠ '\x7b'))
      (c.reverse ++ '\x7b' :: ' ' :: b.reverse) = c.reverse := by
    rw [takeWhile_append_of_all _ hallp, List.takeWhile_cons,
      if_neg (by simp), List.append_nil]
  have hdrop : List.dropWhile (fun x => decide (x ≠ '\x7b'))
      (c.reverse ++ '\x7b' :: ' ' :: b.reverse) = '\x7b' :: ' ' :: b.reverse := by
    rw [dropWhile_append_of_all _ hallp, List.dropWhile_cons, if_neg (by simp)]
  unfold stripLineMarker
  rw [hdropws]
  simp only [if_pos rfl, hdrop, htake, List.reverse_reverse, List.reverse_cons]
  rw [if_pos hc]
  simp

theorem stripLine_fst_subset {line : Str} : ∀ x ∈ (stripLine line).1, x ∈ line := by
  intro x hx
  unfold stripLine at hx
  cases hm : stripLineMarker line with
  | some pc =>
    rw [hm] at hx
    exact (@stripLineMarker_some line pc.1 pc.2
      (by rw [hm])).2 x (mem_of_mem_trimR hx)
  | none => rwa [hm] at hx

theorem stripLine_no_newline {line : Str} (hl : '\n' ∉ line) :
    '\n' ∉ (stripLine line).1 := fun hm => hl (stripLine_fst_subset _ hm)

theorem stripLine_snd_no_newline {line : Str} {c : Str}
    (h : (stripLine line).2 = some c) : '\n' ∉ c := by
  unfold stripLine at h
  cases hm : stripLineMarker line with
  | some pc =>
    rw [hm] at h
    obtain rfl : toLowerStr pc.2 = c := by simpa using h
    exact newline_not_mem_toLowerStr
      (newline_not_mem_of_validCode
        (@stripLineMarker_some line pc.1 pc.2 (by rw [hm])).1)
  | none => rw [hm] at h; exact absurd h (by simp)

/-! ### mapIdx and getD helpers -/

theorem mem_mapIdx_imp {α β : Type} :
    ∀ (L : List α) (f : Nat → α → β) (x : β),
      x ∈ L.mapIdx f → ∃ i a, a ∈ L ∧ x = f i a
  | [], f, x, h => by simp at h
  | a :: t, f, x, h => by
    rw [List.mapIdx_cons, List.mem_cons] at h
    rcases h with rfl | h
    · exact ⟨0, a, List.mem_cons_self _ _, rfl⟩
    · obtain ⟨i, a', ha', rfl⟩ := mem_mapIdx_imp t _ x h
      exact ⟨i + 1, a', List.mem_cons_of_mem _ ha', rfl⟩

theorem mapIdx_congr_lt {α β : Type} :
    ∀ (L : List α) (f g : Nat → α → β),
      (∀ i, i < L.length → ∀ a, f i a = g i a) → L.mapIdx f = L.mapIdx g
  | [], _, _, _ => rfl
  | a :: t, f, g, h => by
    rw [List.mapIdx_cons, List.mapIdx_cons, h 0 (by simp) a,
      mapIdx_congr_lt t _ _ fun i hi a' => h (i + 1) (by simpa using hi) a']

theorem mapIdx_map_getD {α β γ δ : Type} (f : α → β) (g : α → Option δ)
    (F : β → Option δ → γ) :
    ∀ ls : List α,
      ((ls.map f).mapIdx fun i b => F b ((ls.map g).getD i none)) =
        ls.map fun a => F (f a) (g a)
  | [] => rfl
  | a :: t => by
    rw [List.map_cons, List.map_cons, List.mapIdx_cons]
    have hfun : (fun i b => F b ((g a :: List.map g t).getD (i + 1) none)) =
        (fun i b => F b ((List.map g t).getD i none)) := by
      funext i b
      rw [List.getD_cons_succ]
    rw [List.map_cons, List.getD_cons_zero, hfun, mapIdx_map_getD f g F t]

theorem getD_mem_or {α : Type} :
    ∀ (l : List α) (i : Nat) (d : α), l.getD i d = d ∨ l.getD i d ∈ l
  | [], _, d => Or.inl rfl
  | a :: t, 0, d => by
    rw [List.getD_cons_zero]
    exact Or.inr (List.mem_cons_self _ _)
  | a :: t, i + 1, d => by
    rw [List.getD_cons_succ]
    rcases getD_mem_or t i d with h | h
    · exact Or.inl h
    · exact Or.inr (List.mem_cons_of_mem _ h)

theorem getD_eq_default_of_le {α : Type} :
    ∀ (l : List α) {i : Nat}, l.length ≤ i → ∀ d : α, l.getD i d = d
  | [], _, _, _ => rfl
  | a :: t, i + 1, h, d => by
    rw [List.getD_cons_succ]
    exact getD_eq_default_of_le t (by simpa using h) d

theorem fitCodes_getD :
    ∀ (codes : List (Option Str)) (n i : Nat), i < n →
      (fitCodes n codes).getD i none = codes.getD i none
  | [], n, i, hi => by
    induction n generalizing i with
    | zero => omega
    | succ m ih =>
      cases i with
      | zero => simp [fitCodes, List.replicate_succ]
      | succ j =>
        have hj := ih (i := j) (by omega)
        simp only [fitCodes, List.replicate_succ, List.take_nil, List.nil_append,
          List.getD_cons_succ] at hj ⊢
        exact hj
  | c :: cs, n, i, hi => by
    cases n with
    | zero => omega
    | succ m =>
      have hfit : fitCodes (m + 1) (c :: cs) = c :: fitCodes m cs := by
        simp [fitCodes, List.take_succ_cons]
      cases i with
      | zero => rw [hfit, List.getD_cons_zero, List.getD_cons_zero]
      | succ j =>
        rw [hfit, List.getD_cons_succ, List.getD_cons_succ]
        exact fitCodes_getD cs m j (by omega)

theorem validCode_ne_nil {c : Str} (h : validCode c = true) : c ≠ [] := by
  intro e
  rw [e] at h
  exact absurd h (by decide)

theorem mergeLineSpec_no_newline {prev : Str} (i : Nat) {a : Str} (ha : '\n' ∉ a) :
    '\n' ∉ mergeLineSpec (stripCategoryMarkers prev).2 i a := by
  unfold mergeLineSpec
  have hbase : '\n' ∉ trimR (match stripLineMarker a with
      | some pc => pc.1
      | none => a) := by
    cases hm : stripLineMarker a with
    | some pc =>
      intro hmem
      exact ha ((@stripLineMarker_some a pc.1 pc.2
        hm).2 _ (mem_of_mem_trimR hmem))
    | none =>
      intro hmem
      exact ha (mem_of_mem_trimR hmem)
  cases hcd : ((stripCategoryMarkers prev).2).getD i none with
  | none => simpa [hcd] using hbase
  | some c =>
    have hc : '\n' ∉ c := by
      rcases getD_mem_or ((stripCategoryMarkers prev).2) i none with h | h
      · rw [hcd] at h; exact absurd h (by simp)
      · rw [hcd] at h
        unfold stripCategoryMarkers at h
        simp only [List.map_map, List.mem_map, Function.comp] at h
        obtain ⟨l', _, hl'⟩ := h
        exact stripLine_snd_no_newline hl'
    simp only [hcd]
    by_cases hce : c = []
    · simpa [hce] using hbase
    · rw [if_neg hce]
      intro hmem
      rcases List.mem_append.mp hmem with hmem | hmem
      · rcases List.mem_append.mp hmem with hmem | hmem
        · rcases List.mem_append.mp hmem with hmem | hmem
          · exact hbase hmem
          · exact absurd hmem (by decide)
        · exact hc hmem
      · exact absurd hmem (by decide)

/-- Claim C2: `mergeCategoryMarkers(previous, next)` works line by line: the
output has one line per line of `next`, and line `i` is the replacement line
with any manually typed trailing marker stripped, with the previous text's
positional code at index `i` reattached when one exists, and left bare
otherwise.  In particular the spec's example holds. -/
theorem c2_merge_positional (prev next : Str) :
    splitLines (mergeCategoryMarkers prev next) =
      (splitLines next).mapIdx (mergeLineSpec (stripCategoryMarkers prev).2) ∧
    mergeCategoryMarkers (str "- Ran 5k \x7bp\x7d") (str "- Ran 5k") =
      str "- Ran 5k \x7bp\x7d" := by
  constructor
  · have hrw : mergeCategoryMarkers prev next =
        joinLines ((splitLines next).mapIdx
          (mergeLineSpec (stripCategoryMarkers prev).2)) := rfl
    rw [hrw]
    apply splitLines_joinLines
    · intro he
      have hlen := congrArg List.length he
      simp only [List.length_mapIdx, List.length_nil] at hlen
      exact splitLines_ne_nil next (List.length_eq_zero.mp hlen)
    · intro l' hl'
      obtain ⟨i, a, ha, rfl⟩ := mem_mapIdx_imp _ _ _ hl'
      exact mergeLineSpec_no_newline i (newline_not_mem_splitLines next a ha)
  · decide

/-- Claim C5 (counterexample): the line of the text `"- a  {p}"` does end in
a well-formed marker (the marker pattern matches it), yet stripping and
re-applying does not reproduce the text, because the two spaces before the
marker collapse to the canonical single space. -/
theorem c5_counterexample :
    stripLineMarker (str "- a  \x7bp\x7d") ≠ none ∧
      applyMarkersToBullets (stripCategoryMarkers (str "- a  \x7bp\x7d")).1
          (stripCategoryMarkers (str "- a  \x7bp\x7d")).2 ≠
        str "- a  \x7bp\x7d" := by
  decide

/-- Claim C5 (amended): the strip/apply round trip reproduces the text
exactly for canonical-form texts: no carriage returns, and every line either
does not match the marker pattern at all, or consists of a base with no
trailing whitespace, a single space, and a lowercase well-formed marker. -/
theorem c5_strip_apply_roundtrip (t : Str) (hr : '\r' ∉ t)
    (hl : ∀ l ∈ splitLines t, canonicalLine l) :
    applyMarkersToBullets (stripCategoryMarkers t).1 (stripCategoryMarkers t).2 = t := by
  have hcr : replCRLF t = t := replCRLF_eq_self t hr
  have hstrip : stripCategoryMarkers t =
      (joinLines ((splitLines t).map fun l => (stripLine l).1),
        (splitLines t).map fun l => (stripLine l).2) := by
    unfold stripCategoryMarkers
    rw [hcr]
    simp only [List.map_map, Function.comp_def]
  rw [hstrip]
  unfold applyMarkersToBullets
  dsimp only []
  have hsplit : splitLines (joinLines ((splitLines t).map fun l => (stripLine l).1)) =
      (splitLines t).map fun l => (stripLine l).1 := by
    apply splitLines_joinLines
    · intro he
      have hlen := congrArg List.length he
      simp only [List.length_map, List.length_nil] at hlen
      exact splitLines_ne_nil t (List.length_eq_zero.mp hlen)
    · intro l' hl'
      obtain ⟨a, ha, rfl⟩ := List.mem_map.mp hl'
      exact stripLine_no_newline (newline_not_mem_splitLines t a ha)
  rw [hsplit]
  rw [mapIdx_map_getD (fun l => (stripLine l).1) (fun l => (stripLine l).2)
    (fun b cd =>
      if toLowerStr (cd.getD []) = [] then b
      else b ++ str " \x7b" ++ toLowerStr (cd.getD []) ++ str "\x7d") (splitLines t)]
  have hmap : ((splitLines t).map fun a =>
      if toLowerStr (((stripLine a).2).getD []) = [] then (stripLine a).1
      else (stripLine a).1 ++ str " \x7b" ++
        toLowerStr (((stripLine a).2).getD []) ++ str "\x7d") = splitLines t := by
    rw [show splitLines t = (splitLines t).map id by simp]
    rw [List.map_map]
    apply List.map_congr_left
    intro a ha
    simp only [Function.comp, id]
    rcases hl a ha with hnone | ⟨b, c, rfl, hv, hlc, htb⟩
    · simp [stripLine, hnone, toLowerStr]
    · rw [show stripLine (b ++ str " \x7b" ++ c ++ str "\x7d") =
          (trimR (b ++ [' ']), some (toLowerStr c)) by
        unfold stripLine
        rw [stripLineMarker_canonical b c hv]]
      have hb' : trimR (b ++ [' ']) = b := by
        rw [trimR_append_ws (by decide)]
        exact htb
      simp only [Option.getD_some, hlc, hb']
      rw [if_neg (validCode_ne_nil hv)]
  rw [hmap]
  exact joinLines_splitLines t

/-- Claim C5 (witness): the amended round trip on a concrete two-line text
with one canonical marker line and one unmarked line. -/
theorem c5_strip_apply_roundtrip_witness :
    applyMarkersToBullets (stripCategoryMarkers (str "- a \x7bp\x7d\n- b")).1
        (stripCategoryMarkers (str "- a \x7bp\x7d\n- b")).2 =
      str "- a \x7bp\x7d\n- b" := by
  apply c5_strip_apply_roundtrip
  · decide
  · intro l hl
    have hsp : splitLines (str "- a \x7bp\x7d\n- b") =
        [str "- a \x7bp\x7d", str "- b"] := by decide
    rw [hsp] at hl
    rcases List.mem_cons.mp hl with rfl | hl
    · exact Or.inr ⟨str "- a", str "p", by decide, by decide, by decide, by decide⟩
    · rcases List.mem_cons.mp hl with rfl | hl
      · exact Or.inl (by decide)
      · simp at hl

/-- Claim C9 (counterexample): calling `applyMarkersToBullets` with one code
for two lines is not a failure of any kind: it returns a normal result that
marks the first line and leaves the second bare.  No length check exists in
the function. -/
theorem c9_counterexample :
    applyMarkersToBullets (str "- a\n- b") [some (str "p")] =
      str "- a \x7bp\x7d\n- b" := by
  decide

/-- Claim C9 (amended): `applyMarkersToBullets` silently tolerates a code
list of any length: the result only depends on the code list truncated or
padded (with absent entries) to exactly the line count; missing entries
leave their lines bare and surplus entries are ignored.  The length
precondition is enforced by the callers instead. -/
theorem c9_apply_tolerates_mismatch (text : Str) (codes : List (Option Str)) :
    applyMarkersToBullets text codes =
      applyMarkersToBullets text (fitCodes (splitLines text).length codes) := by
  unfold applyMarkersToBullets
  dsimp only []
  congr 1
  apply mapIdx_congr_lt
  intro i hi a
  rw [fitCodes_getD codes _ i hi]

/-- Claim C10: for a configured path, `notes:load` returns the stored day
content with, per line, the trailing marker stripped (line count and order
preserved: the returned content splits back into exactly one processed line
per stored line) together with the positionally aligned code list produced
by the per-line strip (lowercased code for marked lines, null for unmarked
ones); a day key not present in the document yields empty content. -/
theorem c10_notes_load (md k : Str) :
    splitLines (notesLoad true md k).content =
      (splitLines (replCRLF ((getEntry (parseNotes md).2 k).getD []))).map
        (fun l => (stripLine l).1) ∧
    (notesLoad true md k).categories =
      some ((splitLines (replCRLF ((getEntry (parseNotes md).2 k).getD []))).map
        (fun l => (stripLine l).2)) ∧
    (getEntry (parseNotes md).2 k = none → (notesLoad true md k).content = []) := by
  have hload : notesLoad true md k =
      ⟨(stripCategoryMarkers ((getEntry (parseNotes md).2 k).getD [])).1,
        some (stripCategoryMarkers ((getEntry (parseNotes md).2 k).getD [])).2⟩ := rfl
  have hstrip : stripCategoryMarkers ((getEntry (parseNotes md).2 k).getD []) =
      (joinLines ((splitLines (replCRLF ((getEntry (parseNotes md).2 k).getD []))).map
          fun l => (stripLine l).1),
        (splitLines (replCRLF ((getEntry (parseNotes md).2 k).getD []))).map
          fun l => (stripLine l).2) := by
    unfold stripCategoryMarkers
    simp only [List.map_map, Function.comp_def]
  refine ⟨?_, ?_, ?_⟩
  · rw [hload, hstrip]
    apply splitLines_joinLines
    · intro he
      have hlen := congrArg List.length he
      simp only [List.length_map, List.length_nil] at hlen
      exact splitLines_ne_nil _ (List.length_eq_zero.mp hlen)
    · intro l' hl'
      obtain ⟨a, ha, rfl⟩ := List.mem_map.mp hl'
      exact stripLine_no_newline (newline_not_mem_splitLines _ a ha)
  · rw [hload, hstrip]
  · intro h
    rw [hload]
    simp only [h, Option.getD_none]
    decide

/-- Claim C10 (witness): loading a missing day key from a document with no
sections yields empty content and a single null category slot. -/
theorem c10_notes_load_witness :
    (notesLoad true (str "# H") (str "2024-01-01")).content = [] :=
  (c10_notes_load (str "# H") (str "2024-01-01")).2.2 (by decide)

/-! ### Claims C3 and C7 -/

theorem allLinesHaveMarkers_ne_nil {c : Str} (h : allLinesHaveMarkers c = true) :
    c ≠ [] := by
  intro e
  rw [e] at h
  exact absurd h (by decide)

/-- Claim C3: with a configured path and API key, `notes:analyze-day`
without `force` returns the skipped success result as soon as every nonblank
line of the day's (nonempty) content carries a well-formed marker: nothing
is written back and the classifier is never invoked. -/
theorem c3_analyze_day_skips (dp : Str → Option Int) (lc : Str → Str → Int)
    (md k : Str) (classify : List Str → Option (List Str))
    (h : allLinesHaveMarkers (trimS ((getEntry (parseNotes md).2 k).getD [])) = true) :
    analyzeDay dp lc true true md k false classify =
      ⟨true, true, none, none, false⟩ := by
  have hne : trimS ((getEntry (parseNotes md).2 k).getD []) ≠ [] :=
    allLinesHaveMarkers_ne_nil h
  unfold analyzeDay
  simp only [Bool.not_true, Bool.not_false, Bool.true_and, if_neg hne, h,
    Bool.false_eq_true, if_false, if_true]

/-- Claim C3 (witness): a concrete single-day document whose only bullet is
already marked is skipped. -/
theorem c3_analyze_day_skips_witness :
    analyzeDay dpNone lcZero true true (str "## 2024-01-01\n\n- a \x7bp\x7d")
        (str "2024-01-01") false (fun _ => none) =
      ⟨true, true, none, none, false⟩ :=
  c3_analyze_day_skips dpNone lcZero (str "## 2024-01-01\n\n- a \x7bp\x7d")
    (str "2024-01-01") (fun _ => none) (by decide)

theorem set_getD_self {α : Type} :
    ∀ (L : List α) (i : Nat) (d : α), i < L.length → L.set i (L.getD i d) = L
  | [], i, d, h => by simp at h
  | a :: t, 0, d, _ => by simp
  | a :: t, i + 1, d, h => by
    simp only [List.getD_cons_succ, List.set_cons_succ]
    rw [set_getD_self t i d (by simpa using h)]

theorem getD_map {α β : Type} (f : α → β) :
    ∀ (L : List α) (i : Nat) (d : α), (L.map f).getD i (f d) = f (L.getD i d)
  | [], _, _ => rfl
  | _ :: _, 0, _ => rfl
  | _ :: t, i + 1, d => getD_map f t i d

theorem getD_set_ne {α : Type} (a d : α) :
    ∀ (L : List α) (i j : Nat), i ≠ j → (L.set i a).getD j d = L.getD j d
  | [], _, _, _ => by simp
  | b :: t, 0, 0, h => absurd rfl h
  | b :: t, 0, j + 1, _ => by simp [List.getD_cons_succ]
  | b :: t, i + 1, 0, _ => by simp
  | b :: t, i + 1, j + 1, h => by
    simp only [List.set_cons_succ, List.getD_cons_succ]
    exact getD_set_ne a d t i j fun e => h (by rw [e])

/-- Claim C7 (counterexample): updating a code that matches neither a custom
state nor any default still reports success and changes the settings (a junk
override entry is created); the claim's required failure never happens. -/
theorem c7_counterexample :
    (statesUpdate ⟨[], [], []⟩ (str "zz") (some (str "T")) none none).success = true ∧
      (statesUpdate ⟨[], [], []⟩ (str "zz") (some (str "T")) none none).settings ≠
        (⟨[], [], []⟩ : Settings) := by
  decide

/-- Claim C7 (amended): `states:update` fails only on a blank code (leaving
the settings unchanged).  For a nonempty code it always reports success and
never changes any stored custom code; when the code matches no custom state
it leaves the custom list untouched and merges the present payload fields
into the override entry at the lowercased code — creating one even when the
code matches no default — while all other override entries are unchanged;
when the code matches the custom at index `idx`, it replaces exactly that
custom with the merge of the present payload fields over it (in place, code
kept), leaving every other custom and all override entries untouched. -/
theorem c7_update_characterization (s : Settings) (code : Str)
    (title description color : Option Str) :
    (code = [] → statesUpdate s code title description color = ⟨s, false⟩) ∧
    (code ≠ [] → (statesUpdate s code title description color).success = true) ∧
    (code ≠ [] →
      (statesUpdate s code title description color).settings.customStates.map
          StateRec.code = s.customStates.map StateRec.code) ∧
    (code ≠ [] →
      s.customStates.findIdx? (fun st => toLowerStr st.code = toLowerStr code) = none →
      (statesUpdate s code title description color).settings.customStates =
          s.customStates ∧
        getEntry (statesUpdate s code title description color).settings.stateOverrides
            (toLowerStr code) =
          some (mergedOverridePatch
            ((getEntry s.stateOverrides (toLowerStr code)).getD ⟨none, none, none⟩)
            title description color) ∧
        ∀ c', c' ≠ toLowerStr code →
          getEntry (statesUpdate s code title description color).settings.stateOverrides
              c' =
            getEntry s.stateOverrides c') ∧
    (code ≠ [] →
      ∀ idx, s.customStates.findIdx?
          (fun st => toLowerStr st.code = toLowerStr code) = some idx →
        (statesUpdate s code title description color).settings.customStates =
            s.customStates.set idx
              (mergedCustomState (s.customStates.getD idx ⟨[], [], [], []⟩)
                title description color) ∧
          (statesUpdate s code title description color).settings.stateOverrides =
            s.stateOverrides ∧
          ∀ j, j ≠ idx →
            (statesUpdate s code title description color).settings.customStates.getD j
                ⟨[], [], [], []⟩ =
              s.customStates.getD j ⟨[], [], [], []⟩) := by
  refine ⟨?_, ?_, ?_, ?_, ?_⟩
  · intro hc
    unfold statesUpdate
    rw [if_pos hc]
  · intro hc
    unfold statesUpdate
    rw [if_neg hc]
    dsimp only []
    cases hidx : List.findIdx? (fun st => decide (toLowerStr st.code = toLowerStr code))
        s.customStates <;> rfl
  · intro hc
    unfold statesUpdate
    rw [if_neg hc]
    dsimp only []
    cases hidx : List.findIdx? (fun st => decide (toLowerStr st.code = toLowerStr code))
        s.customStates with
    | none => rfl
    | some idx =>
      have hlt : idx < s.customStates.length :=
        (List.findIdx?_eq_some_iff_findIdx_eq.mp hidx).1
      dsimp only []
      rw [List.map_set, ← getD_map StateRec.code s.customStates idx ⟨[], [], [], []⟩]
      exact set_getD_self _ idx _ (by simpa using hlt)
  · intro hc hidx
    unfold statesUpdate
    rw [if_neg hc]
    dsimp only []
    rw [hidx]
    refine ⟨rfl, ?_, ?_⟩
    · exact getEntry_setEntry_self _ _ _
    · intro c' hne
      exact getEntry_setEntry_ne _ _ _ _ hne
  · intro hc idx hidx
    unfold statesUpdate
    rw [if_neg hc]
    dsimp only []
    rw [hidx]
    refine ⟨rfl, rfl, ?_⟩
    intro j hj
    exact getD_set_ne _ _ _ idx j fun e => hj e.symm

/-- Claim C7 (witness): updating the default code `m` with a new title
succeeds, keeps the custom list empty, stores the merged override under `m`,
and leaves other override entries (such as `p`) untouched; and updating code
`X` against a settings state holding the single custom `x` replaces exactly
that custom with the field merge (the disallowed color `RED` ignored),
leaving the overrides and every other custom slot untouched. -/
theorem c7_update_characterization_witness :
    ((statesUpdate ⟨[], [], []⟩ (str "M") (some (str "Mind")) none none).settings.customStates
        = [] ∧
      getEntry (statesUpdate ⟨[], [], []⟩ (str "M") (some (str "Mind"))
          none none).settings.stateOverrides (toLowerStr (str "M")) =
        some (mergedOverridePatch ⟨none, none, none⟩ (some (str "Mind")) none none) ∧
      ∀ c', c' ≠ toLowerStr (str "M") →
        getEntry (statesUpdate ⟨[], [], []⟩ (str "M") (some (str "Mind"))
            none none).settings.stateOverrides c' =
          getEntry ([] : List (Str × OverridePatch)) c') ∧
    ((statesUpdate ⟨[], [⟨str "x", str "T", str "D", str "sky"⟩], []⟩ (str "X")
          (some (str "New")) none (some (str "RED"))).settings.customStates =
        [⟨str "x", str "T", str "D", str "sky"⟩].set 0
          (mergedCustomState
            ([⟨str "x", str "T", str "D", str "sky"⟩].getD 0 ⟨[], [], [], []⟩)
            (some (str "New")) none (some (str "RED"))) ∧
      (statesUpdate ⟨[], [⟨str "x", str "T", str "D", str "sky"⟩], []⟩ (str "X")
          (some (str "New")) none (some (str "RED"))).settings.stateOverrides = [] ∧
      ∀ j, j ≠ 0 →
        (statesUpdate ⟨[], [⟨str "x", str "T", str "D", str "sky"⟩], []⟩ (str "X")
            (some (str "New")) none (some (str "RED"))).settings.customStates.getD j
            ⟨[], [], [], []⟩ =
          ([⟨str "x", str "T", str "D", str "sky"⟩] : List StateRec).getD j
            ⟨[], [], [], []⟩) :=
  ⟨(c7_update_characterization ⟨[], [], []⟩ (str "M") (some (str "Mind"))
        none none).2.2.2.1 (by decide) (by decide),
    (c7_update_characterization ⟨[], [⟨str "x", str "T", str "D", str "sky"⟩], []⟩
        (str "X") (some (str "New")) none (some (str "RED"))).2.2.2.2
      (by decide) 0 (by decide)⟩

/-! ### Claim C4: the taxonomy snapshot invariant -/

theorem map_digitChar_inj :
    ∀ (l₁ l₂ : List Nat), (∀ x ∈ l₁, x < 10) → (∀ x ∈ l₂, x < 10) →
      l₁.map Nat.digitChar = l₂.map Nat.digitChar → l₁ = l₂
  | [], [], _, _, _ => rfl
  | [], _ :: _, _, _, h => by simp at h
  | _ :: _, [], _, _, h => by simp at h
  | a :: t₁, b :: t₂, h₁, h₂, h => by
    rw [List.map_cons, List.map_cons, List.cons_eq_cons] at h
    have hab : a = b := by
      have : ∀ a, a < 10 → ∀ b, b < 10 → Nat.digitChar a = Nat.digitChar b → a = b := by
        decide
      exact this a (h₁ a (List.mem_cons_self _ _)) b (h₂ b (List.mem_cons_self _ _)) h.1
    rw [hab, map_digitChar_inj t₁ t₂
      (fun x hx => h₁ x (List.mem_cons_of_mem _ hx))
      (fun x hx => h₂ x (List.mem_cons_of_mem _ hx)) h.2]

theorem natToStr_injective : Function.Injective natToStr := by
  intro m n h
  unfold natToStr at h
  by_cases hm : m = 0 <;> by_cases hn : n = 0
  · rw [hm, hn]
  · rw [if_pos hm, if_neg hn] at h
    have hd : Nat.digits 10 n = [0] := by
      have := map_digitChar_inj (Nat.digits 10 n).reverse [0]
        (fun x hx => Nat.digits_lt_base (by norm_num) (List.mem_reverse.mp hx))
        (by simp) (by rw [← h]; rfl)
      have hrev := congrArg List.reverse this
      simpa using hrev
    have := Nat.ofDigits_digits 10 n
    rw [hd] at this
    simp [Nat.ofDigits] at this
    exact absurd this.symm hn
  · rw [if_neg hm, if_pos hn] at h
    have hd : Nat.digits 10 m = [0] := by
      have := map_digitChar_inj (Nat.digits 10 m).reverse [0]
        (fun x hx => Nat.digits_lt_base (by norm_num) (List.mem_reverse.mp hx))
        (by simp) (by rw [h]; rfl)
      have hrev := congrArg List.reverse this
      simpa using hrev
    have := Nat.ofDigits_digits 10 m
    rw [hd] at this
    simp [Nat.ofDigits] at this
    exact absurd this.symm hm
  · rw [if_neg hm, if_neg hn] at h
    have hdig : Nat.digits 10 m = Nat.digits 10 n := by
      have := map_digitChar_inj (Nat.digits 10 m).reverse (Nat.digits 10 n).reverse
        (fun x hx => Nat.digits_lt_base (by norm_num) (List.mem_reverse.mp hx))
        (fun x hx => Nat.digits_lt_base (by norm_num) (List.mem_reverse.mp hx)) h
      have hrev := congrArg List.reverse this
      simpa using hrev
    rw [← Nat.ofDigits_digits 10 m, ← Nat.ofDigits_digits 10 n, hdig]

theorem tryCodesFrom_not_mem (base : Str) (used : List Str) :
    ∀ (fuel i : Nat), (∃ j, i ≤ j ∧ j < i + fuel ∧ base ++ natToStr j ∉ used) →
      tryCodesFrom base used fuel i ∉ used
  | 0, i, h => by
    obtain ⟨j, h1, h2, _⟩ := h
    omega
  | fuel + 1, i, h => by
    unfold tryCodesFrom
    dsimp only []
    by_cases hc : base ++ natToStr i ∈ used
    · rw [if_pos hc]
      obtain ⟨j, h1, h2, h3⟩ := h
      have hji : j ≠ i := fun e => (e ▸ h3) hc
      exact tryCodesFrom_not_mem base used fuel (i + 1) ⟨j, by omega, by omega, h3⟩
    · rw [if_neg hc]
      exact hc

theorem exists_free_suffix (base : Str) (used : List Str) :
    ∃ j, 2 ≤ j ∧ j < 2 + (used.length + 1) ∧ base ++ natToStr j ∉ used := by
  by_contra hcon
  push_neg at hcon
  have hnd : ((List.range' 2 (used.length + 1)).map fun j => base ++ natToStr j).Nodup := by
    apply List.Nodup.map_on
    · intro a _ b _ hab
      exact natToStr_injective (List.append_cancel_left hab)
    · exact List.nodup_range' 2 (used.length + 1)
  have hsub : ∀ x ∈ (List.range' 2 (used.length + 1)).map fun j => base ++ natToStr j,
      x ∈ used := by
    intro x hx
    obtain ⟨j, hj, rfl⟩ := List.mem_map.mp hx
    obtain ⟨hj1, hj2⟩ := List.mem_range'_1.mp hj
    exact hcon j hj1 (by omega)
  have h1 := List.toFinset_card_of_nodup hnd
  have h2 : ((List.range' 2 (used.length + 1)).map fun j => base ++ natToStr j).toFinset ⊆
      used.toFinset := by
    intro x hx
    rw [List.mem_toFinset] at hx ⊢
    exact hsub x hx
  have h3 := Finset.card_le_card h2
  have h4 := List.toFinset_card_le used
  have h5 : ((List.range' 2 (used.length + 1)).map fun j => base ++ natToStr j).length =
      used.length + 1 := by
    simp
  omega

theorem resolveFreeCode_not_mem (base : Str) (used : List Str) :
    resolveFreeCode base used ∉ used := by
  unfold resolveFreeCode
  by_cases h : base ∈ used
  · rw [if_pos h]
    obtain ⟨j, h1, h2, h3⟩ := exists_free_suffix base used
    exact tryCodesFrom_not_mem base used (used.length + 1) 2 ⟨j, h1, h2, h3⟩
  · rw [if_neg h]
    exact h

theorem resolveCustomsAux_codes :
    ∀ (cs : List StateRec) (used : List Str),
      ((resolveCustomsAux used cs).map StateRec.code).Nodup ∧
        ∀ c ∈ (resolveCustomsAux used cs).map StateRec.code, c ∉ used
  | [], used => by simp [resolveCustomsAux]
  | s :: rest, used => by
    obtain ⟨ih1, ih2⟩ := resolveCustomsAux_codes rest
      (used ++ [resolveFreeCode
        (strOr (toLowerStr (trimS s.code)) (generateCodeFromTitle s.title used)) used])
    unfold resolveCustomsAux
    dsimp only []
    rw [List.map_cons]
    constructor
    · rw [List.nodup_cons]
      refine ⟨?_, ih1⟩
      intro hmem
      have := ih2 _ hmem
      simp only [List.mem_append, List.mem_singleton, not_or] at this
      exact this.2 trivial
    · intro c hc
      rcases List.mem_cons.mp hc with rfl | hc
      · exact resolveFreeCode_not_mem _ used
      · have := ih2 _ hc
        simp only [List.mem_append, List.mem_singleton, not_or] at this
        exact this.1

theorem resolveDefaults_map_code (ov : List (Str × OverridePatch)) :
    (resolveDefaults ov).map StateRec.code =
      [str "m", str "p", str "f", str "c", str "u", str "r"] := by
  unfold resolveDefaults
  rw [List.map_map]
  have hcomp : (StateRec.code ∘ fun s =>
      applyOverride s ((getEntry ov (toLowerStr s.code)).getD ⟨none, none, none⟩)
        (toLowerStr s.code)) = fun s : StateRec => toLowerStr s.code := by
    funext s
    rfl
  rw [hcomp]
  decide

theorem resolveCustomsAux_fields :
    ∀ (cs : List StateRec) (used : List Str),
      (resolveCustomsAux used cs).map (fun r => (r.title, r.description, r.color)) =
        cs.map fun c =>
          (strOr c.title (str "Custom"), strOr c.description [], strOr c.color (str "slate"))
  | [], _ => rfl
  | s :: rest, used => by
    unfold resolveCustomsAux
    dsimp only []
    rw [List.map_cons, List.map_cons, resolveCustomsAux_fields rest _]

/-- Claim C4: for every settings state — in particular after any sequence of
addState, updateState and deleteState operations — the taxonomy snapshot
returned by `loadAllStates` has pairwise-distinct codes; its first six codes
are the six default codes in their fixed order, unaltered; and the remaining
records are the stored custom records, one per stored record in insertion
order, with their fields (normalized through the falsy fallbacks). -/
theorem c4_taxonomy_invariant (s : Settings) :
    ((loadAllStates s).map StateRec.code).Nodup ∧
    ((loadAllStates s).map StateRec.code).take 6 =
      [str "m", str "p", str "f", str "c", str "u", str "r"] ∧
    ((loadAllStates s).drop 6).map (fun r => (r.title, r.description, r.color)) =
      s.customStates.map fun c =>
        (strOr c.title (str "Custom"), strOr c.description [], strOr c.color (str "slate")) := by
  obtain ⟨hnodup, hfresh⟩ := resolveCustomsAux_codes s.customStates
    (getDefaultStates.map fun st => toLowerStr st.code)
  have hused : (getDefaultStates.map fun st : StateRec => toLowerStr st.code) =
      [str "m", str "p", str "f", str "c", str "u", str "r"] := by decide
  refine ⟨?_, ?_, ?_⟩
  · unfold loadAllStates
    rw [List.map_append, List.nodup_append]
    refine ⟨?_, hnodup, ?_⟩
    · rw [resolveDefaults_map_code]
      decide
    · intro a ha hb
      rw [resolveDefaults_map_code] at ha
      have := hfresh a hb
      rw [hused] at this
      exact this ha
  · unfold loadAllStates
    rw [List.map_append, List.take_left' (by rw [resolveDefaults_map_code]; rfl)]
    exact resolveDefaults_map_code s.stateOverrides
  · unfold loadAllStates
    rw [List.drop_left' (by unfold resolveDefaults; rw [List.length_map]; rfl)]
    exact resolveCustomsAux_fields s.customStates _

/-! ### Claim C8: the bulk sweep -/

theorem map_fst_setEntry {β : Type} :
    ∀ (m : List (Str × β)) (k : Str) (v : β),
      (setEntry m k v).map Prod.fst =
        if k ∈ m.map Prod.fst then m.map Prod.fst else m.map Prod.fst ++ [k]
  | [], k, v => by simp [setEntry]
  | e :: t, k, v => by
    by_cases he : e.1 = k
    · simp only [setEntry, if_pos he, List.map_cons]
      rw [if_pos (List.mem_cons.mpr (Or.inl he.symm)), he]
    · simp only [setEntry, if_neg he, List.map_cons, map_fst_setEntry t k v]
      have hke : ¬k = e.1 := fun hk => he hk.symm
      by_cases hmem : k ∈ t.map Prod.fst
      · rw [if_pos hmem, if_pos (List.mem_cons.mpr (Or.inr hmem))]
      · rw [if_neg hmem,
          if_neg (by rw [List.mem_cons]; exact fun h => h.elim hke hmem)]
        simp

theorem nodup_keys_setEntry {β : Type} (m : List (Str × β)) (k : Str) (v : β)
    (nd : (m.map Prod.fst).Nodup) : ((setEntry m k v).map Prod.fst).Nodup := by
  rw [map_fst_setEntry]
  by_cases hmem : k ∈ m.map Prod.fst
  · rwa [if_pos hmem]
  · rw [if_neg hmem, List.nodup_append]
    refine ⟨nd, List.nodup_singleton k, ?_⟩
    intro a ha hb
    rw [List.mem_singleton] at hb
    exact hmem (hb ▸ ha)

theorem parseDays_nodup_keys :
    ∀ (lines : List Str) (cur : Str) (buf : List Str) (acc : List (Str × Str)),
      (acc.map Prod.fst).Nodup → ((parseDays lines cur buf acc).map Prod.fst).Nodup
  | [], cur, buf, acc, nd => by
    unfold parseDays
    by_cases hcur : cur = []
    · rwa [if_pos hcur]
    · rw [if_neg hcur]
      exact nodup_keys_setEntry acc cur _ nd
  | l :: ls, cur, buf, acc, nd => by
    unfold parseDays
    by_cases hl : startsWithHH l
    · rw [if_pos hl]
      apply parseDays_nodup_keys
      by_cases hcur : cur = []
      · rwa [if_pos hcur]
      · rw [if_neg hcur]
        exact nodup_keys_setEntry acc cur _ nd
    · rw [if_neg hl]
      exact parseDays_nodup_keys ls cur (l :: buf) acc nd

theorem parseNotes_nodup_keys (md : Str) :
    ((parseNotes md).2.map Prod.fst).Nodup := by
  unfold parseNotes
  exact parseDays_nodup_keys _ [] [] [] (by simp)

theorem analyzeAllGo_spec (classify : Str → List Str → Option (List Str)) (force : Bool) :
    ∀ (rest pre : List (Str × Str)) (u : Nat),
      (∀ k ∈ rest.map Prod.fst, k ∉ pre.map Prod.fst) →
      (rest.map Prod.fst).Nodup →
      analyzeAllGo classify force (rest.map Prod.fst) (pre ++ rest) u =
        (pre ++ rest.map (sweepDayResult classify force),
          u + rest.countP (sweepDayUpdated classify force))
  | [], pre, u, _, _ => by simp [analyzeAllGo]
  | (k, v) :: rest', pre, u, hdisj, nd => by
    rw [List.map_cons, List.nodup_cons] at nd
    have hkpre : k ∉ pre.map Prod.fst :=
      hdisj k (by rw [List.map_cons]; exact List.mem_cons_self _ _)
    have hget : getEntry (pre ++ (k, v) :: rest') k = some v := by
      rw [getEntry_append_left_not_mem pre hkpre]
      simp [getEntry]
    have hdisj' : ∀ k' ∈ rest'.map Prod.fst, k' ∉ (pre ++ [(k, v)]).map Prod.fst := by
      intro k' hk'
      rw [List.map_append, List.mem_append]
      rintro (hm | hm)
      · exact hdisj k' (by rw [List.map_cons]; exact List.mem_cons_of_mem _ hk') hm
      · simp only [List.map_cons, List.map_nil, List.mem_singleton] at hm
        exact nd.1 (hm ▸ hk')
    have hcons : ∀ w : Str × Str, (pre ++ [w]) ++ rest' = pre ++ w :: rest' := by
      intro w
      rw [List.append_assoc, List.singleton_append]
    have hconsR : ∀ (w : Str × Str) (L : List (Str × Str)),
        (pre ++ [w]) ++ L = pre ++ w :: L := by
      intro w L
      rw [List.append_assoc, List.singleton_append]
    have hupdEq : sweepDayUpdated classify force (k, v) =
        (if trimS v = [] then false
          else if !force && allLinesHaveMarkers (trimS v) then false
          else if (extractBulletBase (trimS v)).2 = [] then false
          else match classify k (extractBulletBase (trimS v)).2 with
            | some codes => decide (codes.length = (extractBulletBase (trimS v)).2.length)
            | none => false) := rfl
    rw [List.map_cons]
    unfold analyzeAllGo
    dsimp only []
    rw [hget]
    simp only [Option.getD_some]
    by_cases hc1 : trimS v = []
    · rw [if_pos hc1]
      have hupd : sweepDayUpdated classify force (k, v) = false := by
        rw [hupdEq, if_pos hc1]
      have hres : sweepDayResult classify force (k, v) = (k, v) := by
        unfold sweepDayResult
        rw [hupd]
        simp
      have ih := analyzeAllGo_spec classify force rest' (pre ++ [(k, v)]) u hdisj' nd.2
      rw [hconsR] at ih
      rw [ih, List.map_cons, hres, List.countP_cons, hupd, hconsR]
      simp
    · rw [if_neg hc1]
      by_cases hc2 : (!force && allLinesHaveMarkers (trimS v)) = true
      · rw [if_pos hc2]
        have hupd : sweepDayUpdated classify force (k, v) = false := by
          rw [hupdEq, if_neg hc1, if_pos hc2]
        have hres : sweepDayResult classify force (k, v) = (k, v) := by
          unfold sweepDayResult
          rw [hupd]
          simp
        have ih := analyzeAllGo_spec classify force rest' (pre ++ [(k, v)]) u hdisj' nd.2
        rw [hconsR] at ih
        rw [ih, List.map_cons, hres, List.countP_cons, hupd, hconsR]
        simp
      · rw [if_neg hc2]
        by_cases hc3 : (extractBulletBase (trimS v)).2 = []
        · rw [if_pos hc3]
          have hupd : sweepDayUpdated classify force (k, v) = false := by
            rw [hupdEq, if_neg hc1, if_neg hc2, if_pos hc3]
          have hres : sweepDayResult classify force (k, v) = (k, v) := by
            unfold sweepDayResult
            rw [hupd]
            simp
          have ih := analyzeAllGo_spec classify force rest' (pre ++ [(k, v)]) u hdisj' nd.2
          rw [hconsR] at ih
          rw [ih, List.map_cons, hres, List.countP_cons, hupd, hconsR]
          simp
        · rw [if_neg hc3]
          cases hcl : classify k (extractBulletBase (trimS v)).2 with
          | none =>
            dsimp only []
            have hupd : sweepDayUpdated classify force (k, v) = false := by
              rw [hupdEq, if_neg hc1, if_neg hc2, if_neg hc3, hcl]
            have hres : sweepDayResult classify force (k, v) = (k, v) := by
              unfold sweepDayResult
              rw [hupd]
              simp
            have ih := analyzeAllGo_spec classify force rest' (pre ++ [(k, v)]) u hdisj' nd.2
            rw [hconsR] at ih
            rw [ih, List.map_cons, hres, List.countP_cons, hupd, hconsR]
            simp
          | some codes =>
            dsimp only []
            by_cases hlen : codes.length = (extractBulletBase (trimS v)).2.length
            · rw [if_pos hlen]
              have hupd : sweepDayUpdated classify force (k, v) = true := by
                rw [hupdEq, if_neg hc1, if_neg hc2, if_neg hc3, hcl]
                exact decide_eq_true hlen
              have hres : sweepDayResult classify force (k, v) =
                  (k, applyMarkersToBullets (extractBulletBase (trimS v)).1
                    (codes.map some)) := by
                unfold sweepDayResult
                rw [hupd]
                simp [hcl]
              have hset : setEntry (pre ++ (k, v) :: rest') k
                  (applyMarkersToBullets (extractBulletBase (trimS v)).1 (codes.map some)) =
                  pre ++ (k, applyMarkersToBullets (extractBulletBase (trimS v)).1
                    (codes.map some)) :: rest' := by
                rw [setEntry_append_left_not_mem pre hkpre]
                simp [setEntry]
              rw [hset]
              have ih := analyzeAllGo_spec classify force rest'
                (pre ++ [(k, applyMarkersToBullets (extractBulletBase (trimS v)).1
                  (codes.map some))]) (u + 1)
                (by
                  intro k' hk'
                  rw [List.map_append, List.mem_append]
                  rintro (hm | hm)
                  · exact hdisj k'
                      (by rw [List.map_cons]; exact List.mem_cons_of_mem _ hk') hm
                  · simp only [List.map_cons, List.map_nil, List.mem_singleton] at hm
                    exact nd.1 (hm ▸ hk')) nd.2
              rw [hconsR] at ih
              rw [ih, List.map_cons, hres, List.countP_cons, hupd, hconsR]
              simp only [if_true, Prod.mk.injEq, true_and]
              omega
            · rw [if_neg hlen]
              have hupd : sweepDayUpdated classify force (k, v) = false := by
                rw [hupdEq, if_neg hc1, if_neg hc2, if_neg hc3, hcl]
                exact decide_eq_false hlen
              have hres : sweepDayResult classify force (k, v) = (k, v) := by
                unfold sweepDayResult
                rw [hupd]
                simp
              have ih := analyzeAllGo_spec classify force rest' (pre ++ [(k, v)]) u
                hdisj' nd.2
              rw [hconsR] at ih
              rw [ih, List.map_cons, hres, List.countP_cons, hupd, hconsR]
              simp

/-- Claim C8: with a configured path and API key, `notes:analyze-all`
processes every stored day independently: the updated count is exactly the
number of stored days for which the per-day pipeline succeeds (nonempty
content, not skipped by the idempotency gate, at least one bullet, and a
classifier answer of matching length) — a failing day never affects the
others; the document is written back exactly once, and only when that count
is nonzero (no write otherwise); and the single notification carries no day
key. -/
theorem c8_sweep_characterization (dp : Str → Option Int) (lc : Str → Str → Int)
    (md : Str) (force : Bool) (classify : Str → List Str → Option (List Str)) :
    analyzeAll dp lc true true md force classify =
      if 0 < (parseNotes md).2.countP (sweepDayUpdated classify force) then
        ⟨true, none, (parseNotes md).2.countP (sweepDayUpdated classify force),
          some (buildNotesDocument dp lc (parseNotes md).1
            ((parseNotes md).2.map (sweepDayResult classify force))), true⟩
      else
        ⟨true, none, (parseNotes md).2.countP (sweepDayUpdated classify force),
          none, false⟩ := by
  unfold analyzeAll
  dsimp only []
  have hgo := analyzeAllGo_spec classify force (parseNotes md).2 [] 0
    (by simp) (parseNotes_nodup_keys md)
  rw [List.nil_append] at hgo
  rw [hgo]
  simp only [List.nil_append, Nat.zero_add, Bool.not_true, Bool.false_eq_true, if_false]

/-! ### Claims C1 and C6: the parse/build round trip -/

theorem mem_joinLines_of_mem :
    ∀ (ls : List Str) (l : Str), l ∈ ls → ∀ x ∈ l, x ∈ joinLines ls
  | [], l, hl, _, _ => by simp at hl
  | [l'], l, hl, x, hx => by
    rw [List.mem_singleton] at hl
    subst hl
    exact hx
  | l' :: l'' :: ls', l, hl, x, hx => by
    show x ∈ l' ++ '\n' :: joinLines (l'' :: ls')
    rw [List.mem_append]
    rcases List.mem_cons.mp hl with rfl | hl
    · exact Or.inl hx
    · exact Or.inr (List.mem_cons_of_mem _
        (mem_joinLines_of_mem (l'' :: ls') l hl x hx))

theorem mem_of_mem_splitLines {s l : Str} {x : Char}
    (hl : l ∈ splitLines s) (hx : x ∈ l) : x ∈ s := by
  rw [← joinLines_splitLines s]
  exact mem_joinLines_of_mem (splitLines s) l hl x hx

theorem intercalate_pair {α : Type} (sep : List α) (x : List α) :
    ∀ (y : List α) (ys : List (List α)),
      List.intercalate sep (x :: y :: ys) = x ++ sep ++ List.intercalate sep (y :: ys) := by
  intro y ys
  induction ys with
  | nil => simp [List.intercalate, List.intersperse]
  | cons z zs ih => simp [List.intercalate, List.intersperse]

theorem intercalate_single {α : Type} (sep : List α) (x : List α) :
    List.intercalate sep [x] = x := by
  simp [List.intercalate, List.intersperse]

theorem isPrefixOf_append_self : ∀ a b : Str, a.isPrefixOf (a ++ b) = true
  | [], _ => by simp [List.isPrefixOf]
  | c :: a', b => by
    simp only [List.cons_append, List.isPrefixOf_cons₂_self]
    exact isPrefixOf_append_self a' b

theorem startsWithHH_key (k : Str) : startsWithHH (str "## " ++ k) = true :=
  isPrefixOf_append_self (str "## ") k

theorem splitLines_nonnil_append {v : Str} : splitLines v ++ [([] : Str)] ≠ [] := by
  intro h
  have := congrArg List.length h
  simp at this

theorem joinLines_sectionChunk (e : Str × Str) :
    joinLines (sectionChunk e) = str "## " ++ e.1 ++ str "\n\n" ++ e.2 ++ ['\n'] := by
  unfold sectionChunk
  have h1 : joinLines (splitLines e.2 ++ [([] : Str)]) = e.2 ++ ['\n'] := by
    rw [joinLines_append (splitLines e.2) [[]] (splitLines_ne_nil e.2) (by simp),
      joinLines_splitLines]
    rfl
  have h2 : joinLines (([] : Str) :: (splitLines e.2 ++ [([] : Str)])) =
      '\n' :: (e.2 ++ ['\n']) := by
    cases hx : splitLines e.2 ++ [([] : Str)] with
    | nil => exact absurd hx splitLines_nonnil_append
    | cons a as =>
      show [] ++ '\n' :: joinLines (a :: as) = '\n' :: (e.2 ++ ['\n'])
      rw [List.nil_append, ← hx, h1]
  calc joinLines ((str "## " ++ e.1) :: ([] : Str) :: (splitLines e.2 ++ [([] : Str)]))
      = (str "## " ++ e.1) ++ '\n' ::
          joinLines (([] : Str) :: (splitLines e.2 ++ [([] : Str)])) := rfl
    _ = (str "## " ++ e.1) ++ '\n' :: ('\n' :: (e.2 ++ ['\n'])) := by rw [h2]
    _ = str "## " ++ e.1 ++ str "\n\n" ++ e.2 ++ ['\n'] := by simp [str]

theorem flatMap_chunks_ne_nil {es : List (Str × Str)} (h : es ≠ []) :
    es.flatMap sectionChunk ≠ [] := by
  cases es with
  | nil => exact absurd rfl h
  | cons e es' =>
    rw [List.flatMap_cons]
    unfold sectionChunk
    simp

theorem joinLines_flatMap_chunks :
    ∀ es : List (Str × Str), es ≠ [] →
      joinLines (es.flatMap sectionChunk) =
        List.intercalate (str "\n\n")
          (es.map fun e => str "## " ++ e.1 ++ str "\n\n" ++ e.2) ++ ['\n']
  | [], h => absurd rfl h
  | [e], _ => by
    rw [List.flatMap_cons, List.flatMap_nil, List.append_nil, joinLines_sectionChunk,
      List.map_cons, List.map_nil, intercalate_single]
  | e :: e' :: es', _ => by
    have ih := joinLines_flatMap_chunks (e' :: es') (by simp)
    rw [List.flatMap_cons,
      joinLines_append (sectionChunk e) ((e' :: es').flatMap sectionChunk)
        (by unfold sectionChunk; simp) (flatMap_chunks_ne_nil (by simp)),
      joinLines_sectionChunk, ih]
    simp only [List.map_cons]
    rw [intercalate_pair]
    simp [str]

theorem sectionChunk_lines_no_newline {e : Str × Str} (hk : '\n' ∉ e.1) :
    ∀ l ∈ sectionChunk e, '\n' ∉ l := by
  intro l hl
  unfold sectionChunk at hl
  rcases List.mem_cons.mp hl with rfl | hl
  · intro hmem
    rcases List.mem_append.mp hmem with hm | hm
    · exact absurd hm (by decide)
    · exact hk hm
  · rcases List.mem_cons.mp hl with rfl | hl
    · simp
    · rcases List.mem_append.mp hl with hm | hm
      · exact newline_not_mem_splitLines _ _ hm
      · rw [List.mem_singleton] at hm
        rw [hm]
        simp

theorem joinLines_blank_body (v : Str) :
    joinLines (([] : Str) :: (splitLines v ++ [[]])) = '\n' :: (v ++ ['\n']) := by
  have h1 : joinLines (splitLines v ++ [([] : Str)]) = v ++ ['\n'] := by
    rw [joinLines_append (splitLines v) [[]] (splitLines_ne_nil v) (by simp),
      joinLines_splitLines]
    rfl
  cases hx : splitLines v ++ [([] : Str)] with
  | nil => exact absurd hx splitLines_nonnil_append
  | cons a as =>
    show [] ++ '\n' :: joinLines (a :: as) = '\n' :: (v ++ ['\n'])
    rw [List.nil_append, ← hx, h1]

theorem trimS_blank_body {v : Str} (hv : trimS v = v) :
    trimS (joinLines (([] : Str) :: (splitLines v ++ [[]]))) = v := by
  rw [joinLines_blank_body, trimS_cons_ws (by decide),
    show v ++ ['\n'] = v ++ ['\n'] from rfl, trimS_append_ws (by decide), hv]

theorem parseDays_body_lines :
    ∀ (L : List Str), (∀ l ∈ L, startsWithHH l = false) →
      ∀ (rest : List Str) (cur : Str) (buf : List Str) (acc : List (Str × Str)),
        parseDays (L ++ rest) cur buf acc = parseDays rest cur (L.reverse ++ buf) acc
  | [], _, rest, cur, buf, acc => by simp
  | l :: L', h, rest, cur, buf, acc => by
    have hl : startsWithHH l = false := h l (List.mem_cons_self _ _)
    rw [List.cons_append]
    have hstep : parseDays (l :: (L' ++ rest)) cur buf acc =
        if startsWithHH l = true then
          parseDays (L' ++ rest) (trimS (l.drop 3)) []
            (if cur = [] then acc else setEntry acc cur (trimS (joinLines buf.reverse)))
        else parseDays (L' ++ rest) cur (l :: buf) acc := rfl
    rw [hstep, if_neg (by rw [hl]; exact Bool.false_ne_true)]
    rw [parseDays_body_lines L' (fun x hx => h x (List.mem_cons_of_mem _ hx))
      rest cur (l :: buf) acc]
    rw [List.reverse_cons, List.append_assoc, List.singleton_append]

theorem startsWithHH_nil : startsWithHH [] = false := by decide

theorem parseDays_flat_chunks :
    ∀ es : List (Str × Str),
      (∀ e ∈ es, trimS e.1 = e.1 ∧ e.1 ≠ [] ∧ trimS e.2 = e.2 ∧
        ∀ l ∈ splitLines e.2, startsWithHH l = false) →
      ∀ (cur : Str) (buf : List Str) (acc : List (Str × Str)),
        parseDays (es.flatMap sectionChunk) cur buf acc =
          es.foldl (fun a e => setEntry a e.1 e.2)
            (if cur = [] then acc
              else setEntry acc cur (trimS (joinLines buf.reverse)))
  | [], _, cur, buf, acc => by
    rw [List.flatMap_nil, List.foldl_nil]
    rfl
  | e :: es', hwf, cur, buf, acc => by
    obtain ⟨hk1, hk2, hv1, hv2⟩ := hwf e (List.mem_cons_self _ _)
    rw [List.flatMap_cons]
    have hchunk : sectionChunk e ++ es'.flatMap sectionChunk =
        (str "## " ++ e.1) :: ((([] : Str) :: (splitLines e.2 ++ [[]])) ++
          es'.flatMap sectionChunk) := by
      unfold sectionChunk
      simp
    rw [hchunk]
    have hstep : parseDays ((str "## " ++ e.1) ::
        ((([] : Str) :: (splitLines e.2 ++ [[]])) ++ es'.flatMap sectionChunk))
          cur buf acc =
        if startsWithHH (str "## " ++ e.1) = true then
          parseDays ((([] : Str) :: (splitLines e.2 ++ [[]])) ++ es'.flatMap sectionChunk)
            (trimS ((str "## " ++ e.1).drop 3)) []
            (if cur = [] then acc else setEntry acc cur (trimS (joinLines buf.reverse)))
        else
          parseDays ((([] : Str) :: (splitLines e.2 ++ [[]])) ++ es'.flatMap sectionChunk)
            cur ((str "## " ++ e.1) :: buf) acc := rfl
    rw [hstep, if_pos (startsWithHH_key e.1)]
    have hdrop : (str "## " ++ e.1).drop 3 = e.1 := rfl
    rw [hdrop, hk1]
    rw [parseDays_body_lines (([] : Str) :: (splitLines e.2 ++ [[]]))
      (by
        intro l hl
        rcases List.mem_cons.mp hl with rfl | hl
        · exact startsWithHH_nil
        · rcases List.mem_append.mp hl with hm | hm
          · exact hv2 l hm
          · rw [List.mem_singleton] at hm
            rw [hm]
            exact startsWithHH_nil)
      (es'.flatMap sectionChunk) e.1 [] _]
    rw [parseDays_flat_chunks es'
      (fun e' he' => hwf e' (List.mem_cons_of_mem _ he')) e.1 _ _]
    rw [if_neg hk2, List.foldl_cons]
    have hbuf : ((([] : Str) :: (splitLines e.2 ++ [[]])).reverse ++ []).reverse =
        ([] : Str) :: (splitLines e.2 ++ [[]]) := by
      simp
    rw [hbuf, trimS_blank_body hv1]

theorem takeWhile_of_all {α : Type} {p : α → Bool} {l : List α}
    (h : ∀ x ∈ l, p x) : l.takeWhile p = l := by
  have hdrop : l.dropWhile p = [] := List.dropWhile_eq_nil_iff.mpr h
  have := List.takeWhile_append_dropWhile p l
  rwa [hdrop, List.append_nil] at this

theorem joinLines_header_blank (h' : Str) :
    joinLines (splitLines h' ++ [[]]) = h' ++ ['\n'] := by
  rw [joinLines_append _ _ (splitLines_ne_nil h') (by simp), joinLines_splitLines]
  rfl

theorem header_blank_all_not_hh {h' : Str}
    (hh4 : ∀ l ∈ splitLines h', startsWithHH l = false) :
    ∀ l ∈ splitLines h' ++ [([] : Str)], (!startsWithHH l) = true := by
  intro l hl
  rcases List.mem_append.mp hl with hl | hl
  · rw [hh4 l hl]
    rfl
  · rw [List.mem_singleton] at hl
    subst hl
    rw [startsWithHH_nil]
    rfl

theorem parseNotes_header_only (h' : Str)
    (hh1 : trimS h' = h') (hh2 : h' ≠ []) (hh3 : '\r' ∉ h')
    (hh4 : ∀ l ∈ splitLines h', startsWithHH l = false) :
    parseNotes (h' ++ ['\n']) = (h', []) := by
  have hcr : '\r' ∉ h' ++ ['\n'] := by
    intro hm
    rcases List.mem_append.mp hm with hm | hm
    · exact hh3 hm
    · simp at hm
  have hsplit : splitLines (replCRLF (h' ++ ['\n'])) = splitLines h' ++ [[]] := by
    rw [replCRLF_eq_self _ hcr, ← joinLines_header_blank]
    apply splitLines_joinLines
    · intro hnil
      have := congrArg List.length hnil
      simp at this
    · intro l hl
      rcases List.mem_append.mp hl with hl | hl
      · exact newline_not_mem_splitLines _ _ hl
      · rw [List.mem_singleton] at hl
        subst hl
        simp
  unfold parseNotes
  dsimp only []
  rw [hsplit, takeWhile_of_all (header_blank_all_not_hh hh4),
    List.dropWhile_eq_nil_iff.mpr (header_blank_all_not_hh hh4),
    joinLines_header_blank, trimS_append_ws (by decide), hh1, if_neg hh2]
  rfl

theorem parseNotes_sections (h' : Str) (es : List (Str × Str)) (hne : es ≠ [])
    (hh1 : trimS h' = h') (hh2 : h' ≠ []) (hh3 : '\r' ∉ h')
    (hh4 : ∀ l ∈ splitLines h', startsWithHH l = false)
    (hes : ∀ e ∈ es, trimS e.1 = e.1 ∧ e.1 ≠ [] ∧ '\n' ∉ e.1 ∧ '\r' ∉ e.1 ∧
      trimS e.2 = e.2 ∧ e.2 ≠ [] ∧ '\r' ∉ e.2 ∧
      ∀ l ∈ splitLines e.2, startsWithHH l = false) :
    parseNotes (joinLines ((splitLines h' ++ [[]]) ++ es.flatMap sectionChunk)) =
      (h', es.foldl (fun a e => setEntry a e.1 e.2) []) := by
  have hcr : '\r' ∉ joinLines ((splitLines h' ++ [[]]) ++ es.flatMap sectionChunk) := by
    intro hmem
    rcases mem_of_mem_joinLines _ _ hmem with he | ⟨l, hl, hxl⟩
    · exact absurd he (by decide)
    · rcases List.mem_append.mp hl with hl | hl
      · rcases List.mem_append.mp hl with hl | hl
        · exact hh3 (mem_of_mem_splitLines hl hxl)
        · rw [List.mem_singleton] at hl
          subst hl
          simp at hxl
      · rcases List.mem_flatMap.mp hl with ⟨e, he, hle⟩
        obtain ⟨_, _, _, hk4, _, _, hv3, _⟩ := hes e he
        unfold sectionChunk at hle
        rcases List.mem_cons.mp hle with rfl | hle
        · rcases List.mem_append.mp hxl with hm | hm
          · exact absurd hm (by decide)
          · exact hk4 hm
        · rcases List.mem_cons.mp hle with rfl | hle
          · simp at hxl
          · rcases List.mem_append.mp hle with hm | hm
            · exact hv3 (mem_of_mem_splitLines hm hxl)
            · rw [List.mem_singleton] at hm
              subst hm
              simp at hxl
  have hsplit : splitLines (replCRLF
      (joinLines ((splitLines h' ++ [[]]) ++ es.flatMap sectionChunk))) =
      (splitLines h' ++ [[]]) ++ es.flatMap sectionChunk := by
    rw [replCRLF_eq_self _ hcr]
    apply splitLines_joinLines
    · intro hnil
      have := congrArg List.length hnil
      simp at this
    · intro l hl
      rcases List.mem_append.mp hl with hl | hl
      · rcases List.mem_append.mp hl with hl | hl
        · exact newline_not_mem_splitLines _ _ hl
        · rw [List.mem_singleton] at hl
          subst hl
          simp
      · rcases List.mem_flatMap.mp hl with ⟨e, he, hle⟩
        exact sectionChunk_lines_no_newline (hes e he).2.2.1 l hle
  obtain ⟨k0, rest0, hFeq⟩ :
      ∃ k0 rest0, es.flatMap sectionChunk = (str "## " ++ k0) :: rest0 := by
    cases es with
    | nil => exact absurd rfl hne
    | cons e es' =>
      rw [List.flatMap_cons]
      refine ⟨e.1, (([] : Str) :: (splitLines e.2 ++ [[]])) ++ es'.flatMap sectionChunk, ?_⟩
      unfold sectionChunk
      simp
  unfold parseNotes
  dsimp only []
  rw [hsplit, hFeq]
  rw [takeWhile_append_of_all _ (header_blank_all_not_hh hh4),
    dropWhile_append_of_all _ (header_blank_all_not_hh hh4),
    List.takeWhile_cons, List.dropWhile_cons]
  rw [show (!startsWithHH (str "## " ++ k0)) = false by rw [startsWithHH_key]; rfl]
  simp only [Bool.false_eq_true, if_false, List.append_nil]
  rw [← hFeq]
  rw [joinLines_header_blank, trimS_append_ws (by decide), hh1, if_neg hh2]
  rw [parseDays_flat_chunks es
    (fun e he => ⟨(hes e he).1, (hes e he).2.1, (hes e he).2.2.2.2.1,
      (hes e he).2.2.2.2.2.2.2⟩) [] [] []]
  rw [if_pos rfl]

theorem filterMap_sections_eq :
    ∀ es : List (Str × Str),
      (es.filterMap fun e =>
        if trimS e.2 = [] then none
        else some (str "## " ++ e.1 ++ str "\n\n" ++ trimS e.2)) =
      ((es.filterMap fun e => if trimS e.2 = [] then none else some (e.1, trimS e.2)).map
        fun e => str "## " ++ e.1 ++ str "\n\n" ++ e.2)
  | [] => rfl
  | e :: es' => by
    rw [List.filterMap_cons, List.filterMap_cons]
    by_cases hv : trimS e.2 = []
    · rw [if_pos hv, if_pos hv]
      exact filterMap_sections_eq es'
    · rw [if_neg hv, if_neg hv, List.map_cons]
      rw [filterMap_sections_eq es']

theorem filterMap_keep_of_nonblank :
    ∀ es : List (Str × Str), (∀ e ∈ es, trimS e.2 = e.2 ∧ e.2 ≠ []) →
      (es.filterMap fun e => if trimS e.2 = [] then none else some (e.1, trimS e.2)) = es
  | [], _ => rfl
  | e :: es', h => by
    obtain ⟨h1, h2⟩ := h e (List.mem_cons_self _ _)
    rw [List.filterMap_cons, if_neg (fun hx => h2 (by rw [← h1]; exact hx)), h1,
      filterMap_keep_of_nonblank es' fun x hx => h x (List.mem_cons_of_mem _ hx)]

theorem intercalate_secstr_ne_nil :
    ∀ es : List (Str × Str), es ≠ [] →
      List.intercalate (str "\n\n")
        (es.map fun e => str "## " ++ e.1 ++ str "\n\n" ++ e.2) ≠ []
  | [], h => absurd rfl h
  | [e], _ => by
    rw [List.map_cons, List.map_nil, intercalate_single]
    simp [str]
  | e :: e' :: es', _ => by
    simp only [List.map_cons]
    rw [intercalate_pair]
    simp [str]

theorem render_eq_joinLines (h' : Str) (es : List (Str × Str)) (hne : es ≠ []) :
    h' ++ '\n' :: '\n' ::
        (List.intercalate (str "\n\n")
          (es.map fun e => str "## " ++ e.1 ++ str "\n\n" ++ e.2)) ++ ['\n'] =
      joinLines ((splitLines h' ++ [[]]) ++ es.flatMap sectionChunk) := by
  rw [joinLines_append _ _
    (by
      intro hx
      have := congrArg List.length hx
      simp at this)
    (flatMap_chunks_ne_nil hne)]
  rw [joinLines_header_blank, joinLines_flatMap_chunks es hne]
  simp [List.append_assoc]

/-- Claim C1 (counterexample): the round trip does not hold for every
header: building with the blank header and an empty day map renders the
default title, which parses back as the default header, not the blank one. -/
theorem c1_counterexample :
    (parseNotes (buildNotesDocument dpNone lcZero [] [])).1 ≠ ([] : Str) := by
  decide

/-- Claim C1 (amended): the round trip `parse (build header days) = (header,
days)` holds — with the day map compared as a mapping (same lookup on every
key) — provided the header is trimmed, nonempty, carriage-return free and
contains no day-delimiter line, and every entry has a trimmed, nonempty,
newline- and carriage-return-free key together with a trimmed, nonempty,
carriage-return-free value none of whose lines opens a day section.  The
blank-header (and analogous blank-key, `## ` line injection) cases fail, as
the counterexample shows. -/
theorem c1_roundtrip (dp : Str → Option Int) (lc : Str → Str → Int)
    (h : Str) (m : List (Str × Str)) (hh : goodHeader h)
    (hm : ∀ e ∈ m, goodKey e.1 ∧ goodValue e.2)
    (hnd : (m.map Prod.fst).Nodup) :
    (parseNotes (buildNotesDocument dp lc h m)).1 = h ∧
      ∀ k, getEntry (parseNotes (buildNotesDocument dp lc h m)).2 k = getEntry m k := by
  obtain ⟨hh1, hh2, hh3, hh4⟩ := hh
  have hperm : (m.insertionSort fun a b => notesCmp dp lc a.1 b.1 ≤ 0).Perm m :=
    List.perm_insertionSort _ m
  have hms : ∀ e ∈ m.insertionSort fun a b => notesCmp dp lc a.1 b.1 ≤ 0,
      goodKey e.1 ∧ goodValue e.2 := fun e he => hm e (hperm.mem_iff.mp he)
  have hnds : ((m.insertionSort fun a b => notesCmp dp lc a.1 b.1 ≤ 0).map
      Prod.fst).Nodup := ((hperm.map Prod.fst).nodup_iff).mpr hnd
  have hkeep : ((m.insertionSort fun a b => notesCmp dp lc a.1 b.1 ≤ 0).filterMap
      fun e => if trimS e.2 = [] then none else some (e.1, trimS e.2)) =
      m.insertionSort fun a b => notesCmp dp lc a.1 b.1 ≤ 0 :=
    filterMap_keep_of_nonblank _ fun e he => ⟨(hms e he).2.1, (hms e he).2.2.1⟩
  have hnorm : (if trimS h ≠ [] then trimS h else NOTES_HEADER) = h := by
    rw [hh1, if_pos hh2]
  by_cases hmnil : m = []
  · subst hmnil
    have hsorted : ([] : List (Str × Str)).insertionSort
        (fun a b => notesCmp dp lc a.1 b.1 ≤ 0) = [] := rfl
    have hbuild : buildNotesDocument dp lc h [] = h ++ ['\n'] := by
      unfold buildNotesDocument
      dsimp only []
      rw [hsorted, List.filterMap_nil]
      show (if List.intercalate (str "\n\n") [] = ([] : Str) then
        (if trimS h ≠ [] then trimS h else NOTES_HEADER) ++ ['\n'] else _) = h ++ ['\n']
      rw [if_pos (show List.intercalate (str "\n\n") [] = ([] : Str) from rfl), hnorm]
    rw [hbuild, parseNotes_header_only h hh1 hh2 hh3 hh4]
    exact ⟨rfl, fun k => rfl⟩
  · have hsne : m.insertionSort (fun a b => notesCmp dp lc a.1 b.1 ≤ 0) ≠ [] := by
      intro hx
      rw [hx] at hperm
      exact hmnil (List.Perm.eq_nil hperm.symm)
    have hbuild : buildNotesDocument dp lc h m =
        joinLines ((splitLines h ++ [[]]) ++
          (m.insertionSort fun a b => notesCmp dp lc a.1 b.1 ≤ 0).flatMap sectionChunk) := by
      unfold buildNotesDocument
      dsimp only []
      rw [filterMap_sections_eq, hkeep, hnorm,
        if_neg (intercalate_secstr_ne_nil _ hsne)]
      exact render_eq_joinLines h _ hsne
    have hparse := parseNotes_sections h
      (m.insertionSort fun a b => notesCmp dp lc a.1 b.1 ≤ 0) hsne hh1 hh2 hh3 hh4
      (fun e he => ⟨(hms e he).1.1, (hms e he).1.2.1, (hms e he).1.2.2.1,
        (hms e he).1.2.2.2, (hms e he).2.1, (hms e he).2.2.1, (hms e he).2.2.2.1,
        (hms e he).2.2.2.2⟩)
    have hfold : (m.insertionSort fun a b => notesCmp dp lc a.1 b.1 ≤ 0).foldl
        (fun a e => setEntry a e.1 e.2) [] =
        m.insertionSort fun a b => notesCmp dp lc a.1 b.1 ≤ 0 := by
      rw [foldl_setEntry_eq_append _ [] (by simp) hnds]
      exact List.nil_append _
    rw [hbuild, hparse]
    refine ⟨rfl, fun k => ?_⟩
    show getEntry ((m.insertionSort fun a b => notesCmp dp lc a.1 b.1 ≤ 0).foldl
      (fun a e => setEntry a e.1 e.2) []) k = getEntry m k
    rw [hfold]
    exact getEntry_congr_perm hperm hnds k

/-- Claim C1 (witness): the amended round trip on a concrete header and a
two-day map (keys supplied out of order, so the build-time sort reorders the
sections). -/
theorem c1_roundtrip_witness :
    (parseNotes (buildNotesDocument dpNone lcZero (str "# Notes")
        [(str "2024-01-02", str "- b"), (str "2024-01-01", str "- a")])).1 =
      str "# Notes" ∧
    getEntry (parseNotes (buildNotesDocument dpNone lcZero (str "# Notes")
        [(str "2024-01-02", str "- b"), (str "2024-01-01", str "- a")])).2
        (str "2024-01-01") =
      getEntry [(str "2024-01-02", str "- b"), (str "2024-01-01", str "- a")]
        (str "2024-01-01") :=
  ⟨(c1_roundtrip dpNone lcZero (str "# Notes")
      [(str "2024-01-02", str "- b"), (str "2024-01-01", str "- a")]
      ⟨by decide, by decide, by decide, by decide⟩
      (by
        intro e he
        rcases List.mem_cons.mp he with rfl | he
        · exact ⟨⟨by decide, by decide, by decide, by decide⟩,
            by decide, by decide, by decide, by decide⟩
        · rcases List.mem_cons.mp he with rfl | he
          · exact ⟨⟨by decide, by decide, by decide, by decide⟩,
              by decide, by decide, by decide, by decide⟩
          · simp at he)
      (by decide)).1,
    (c1_roundtrip dpNone lcZero (str "# Notes")
      [(str "2024-01-02", str "- b"), (str "2024-01-01", str "- a")]
      ⟨by decide, by decide, by decide, by decide⟩
      (by
        intro e he
        rcases List.mem_cons.mp he with rfl | he
        · exact ⟨⟨by decide, by decide, by decide, by decide⟩,
            by decide, by decide, by decide, by decide⟩
        · rcases List.mem_cons.mp he with rfl | he
          · exact ⟨⟨by decide, by decide, by decide, by decide⟩,
              by decide, by decide, by decide, by decide⟩
          · simp at he)
      (by decide)).2 (str "2024-01-01")⟩

theorem mem_foldl_setEntry :
    ∀ (es acc : List (Str × Str)) (e : Str × Str),
      e ∈ es.foldl (fun a x => setEntry a x.1 x.2) acc → e ∈ acc ∨ e ∈ es
  | [], acc, e, h => by
    rw [List.foldl_nil] at h
    exact Or.inl h
  | x :: es', acc, e, h => by
    rw [List.foldl_cons] at h
    rcases mem_foldl_setEntry es' _ e h with h' | h'
    · rcases mem_setEntry h' with h'' | h''
      · exact Or.inl h''
      · exact Or.inr (by rw [h'']; exact List.mem_cons_self _ _)
    · exact Or.inr (List.mem_cons_of_mem _ h')

/-- Claim C6 (counterexample): `parseNotes` does associate a key with the
empty string: a `## a` section immediately followed by another section is
stored as an empty value, so the first half of the claim (every parse value
is nonempty after trimming) is false. -/
theorem c6_counterexample :
    getEntry (parseNotes (str "## a\n## b\n\nx")).2 (str "a") = some [] := by
  decide

/-- Claim C6 (amended): the blank-dropping half of the claim holds, and it
is `buildNotesDocument` (not `parseNotes`) that enforces the invariant: for
a well-formed header and structurally sane keys and values, every value of
the mapping obtained by re-parsing a built document is trimmed and nonempty
— entries whose trimmed content is empty are omitted by build.  `parseNotes`
alone can return empty values, as the counterexample shows. -/
theorem c6_build_values_nonblank (dp : Str → Option Int) (lc : Str → Str → Int)
    (h : Str) (m : List (Str × Str)) (hh : goodHeader h)
    (hm : ∀ e ∈ m, goodKey e.1 ∧ tameValue e.2) :
    ∀ e ∈ (parseNotes (buildNotesDocument dp lc h m)).2,
      trimS e.2 = e.2 ∧ e.2 ≠ [] := by
  obtain ⟨hh1, hh2, hh3, hh4⟩ := hh
  have hperm : (m.insertionSort fun a b => notesCmp dp lc a.1 b.1 ≤ 0).Perm m :=
    List.perm_insertionSort _ m
  have hms : ∀ e ∈ m.insertionSort fun a b => notesCmp dp lc a.1 b.1 ≤ 0,
      goodKey e.1 ∧ tameValue e.2 := fun e he => hm e (hperm.mem_iff.mp he)
  have hnorm : (if trimS h ≠ [] then trimS h else NOTES_HEADER) = h := by
    rw [hh1, if_pos hh2]
  have hkeptmem : ∀ e' ∈ (m.insertionSort fun a b => notesCmp dp lc a.1 b.1 ≤ 0).filterMap
      (fun e => if trimS e.2 = [] then none else some (e.1, trimS e.2)),
      ∃ a : Str × Str, (goodKey a.1 ∧ tameValue a.2) ∧ trimS a.2 ≠ [] ∧
        e' = (a.1, trimS a.2) := by
    intro e' he'
    obtain ⟨a, ha, heq⟩ := List.mem_filterMap.mp he'
    by_cases hv : trimS a.2 = []
    · rw [if_pos hv] at heq
      exact absurd heq (by simp)
    · rw [if_neg hv] at heq
      exact ⟨a, hms a ha, hv, (Option.some_injective _ heq).symm⟩
  have hkeptwf : ∀ e' ∈ (m.insertionSort fun a b => notesCmp dp lc a.1 b.1 ≤ 0).filterMap
      (fun e => if trimS e.2 = [] then none else some (e.1, trimS e.2)),
      trimS e'.1 = e'.1 ∧ e'.1 ≠ [] ∧ '\n' ∉ e'.1 ∧ '\r' ∉ e'.1 ∧
        trimS e'.2 = e'.2 ∧ e'.2 ≠ [] ∧ '\r' ∉ e'.2 ∧
        ∀ l ∈ splitLines e'.2, startsWithHH l = false := by
    intro e' he'
    obtain ⟨a, ⟨hka, hva⟩, hvne, rfl⟩ := hkeptmem e' he'
    exact ⟨hka.1, hka.2.1, hka.2.2.1, hka.2.2.2, trimS_idem a.2, hvne,
      fun hr => hva.1 (mem_of_mem_trimS hr), hva.2⟩
  by_cases hkept : ((m.insertionSort fun a b => notesCmp dp lc a.1 b.1 ≤ 0).filterMap
      fun e => if trimS e.2 = [] then none else some (e.1, trimS e.2)) = []
  · have hbuild : buildNotesDocument dp lc h m = h ++ ['\n'] := by
      unfold buildNotesDocument
      dsimp only []
      rw [filterMap_sections_eq, hkept, List.map_nil,
        if_pos (show List.intercalate (str "\n\n") [] = ([] : Str) from rfl), hnorm]
    rw [hbuild, parseNotes_header_only h hh1 hh2 hh3 hh4]
    intro e he
    simp at he
  · have hbuild : buildNotesDocument dp lc h m =
        joinLines ((splitLines h ++ [[]]) ++
          ((m.insertionSort fun a b => notesCmp dp lc a.1 b.1 ≤ 0).filterMap
            fun e => if trimS e.2 = [] then none else some (e.1, trimS e.2)).flatMap
              sectionChunk) := by
      unfold buildNotesDocument
      dsimp only []
      rw [filterMap_sections_eq, hnorm, if_neg (intercalate_secstr_ne_nil _ hkept)]
      exact render_eq_joinLines h _ hkept
    have hparse := parseNotes_sections h
      ((m.insertionSort fun a b => notesCmp dp lc a.1 b.1 ≤ 0).filterMap
        fun e => if trimS e.2 = [] then none else some (e.1, trimS e.2))
      hkept hh1 hh2 hh3 hh4 hkeptwf
    rw [hbuild, hparse]
    intro e he
    rcases mem_foldl_setEntry _ [] e he with h' | h'
    · simp at h'
    · exact ⟨(hkeptwf e h').2.2.2.2.1, (hkeptwf e h').2.2.2.2.2.1⟩

/-- Claim C6 (witness): building a map with one blank and one padded value
keeps only the trimmed nonempty entry, and the re-parsed value for it is
trimmed and nonempty. -/
theorem c6_build_values_nonblank_witness :
    trimS (str "x") = str "x" ∧ str "x" ≠ ([] : Str) :=
  c6_build_values_nonblank dpNone lcZero (str "# H")
    [(str "b", str "  "), (str "a", str " x ")]
    ⟨by decide, by decide, by decide, by decide⟩
    (by
      intro e he
      rcases List.mem_cons.mp he with rfl | he
      · exact ⟨⟨by decide, by decide, by decide, by decide⟩, by decide, by decide⟩
      · rcases List.mem_cons.mp he with rfl | he
        · exact ⟨⟨by decide, by decide, by decide, by decide⟩, by decide, by decide⟩
        · simp at he)
    (str "a", str "x") (by decide)

end OyVai
